import Mathlib

/-!
Verification of the schema-builder core of parsec-rdl-gen
(src/vendor/github.com/ardielle/ardielle-go/rdl/schemabuilder.go).

The Go code is shallowly embedded: each Go struct becomes a Lean structure,
the tagged `Type` record (one pointer field per variant) becomes a sum type,
Go maps become association lists with last-insertion-wins lookup, and the
unguarded mutual recursion of `SchemaBuilder.resolve` / `resolveRef` becomes a
fuel-indexed interpreter.  A fuel-exhaustion error models non-terminating
recursion of the Go original; a nil-panic error models a Go nil-pointer
dereference (lookup of an undeclared name, or a supertype tag that does not
match the descriptor variant).
-/

/-- Field of a struct type (Go `StructFieldDef`).  `keys`/`items` hold the
inline references installed by `MapField`/`ArrayField`; the Go zero value for
an unset reference is the empty string. -/
structure StructFieldDef where
  name : String
  type : String
  optional : Bool
  comment : String
  keys : String
  items : String
  deriving DecidableEq

/-- Go `AliasTypeDef`: supertype reference (`type`), own name, comment. -/
structure AliasTypeDef where
  type : String
  name : String
  comment : String
  deriving DecidableEq

/-- Go `StringTypeDef`.  `pattern`/`maxSize`/`minSize`/`values` are the
constraints consulted by `StringTypeBuilder.Build`. -/
structure StringTypeDef where
  type : String
  name : String
  comment : String
  pattern : String
  maxSize : Option Int
  minSize : Option Int
  values : Option (List String)
  deriving DecidableEq

/-- Go `NumberTypeDef`.  The numeric min/max bounds are omitted from the
embedding: they are floating-point-tagged values never consulted by the
schema builder's resolution pass nor by any claim. -/
structure NumberTypeDef where
  type : String
  name : String
  comment : String
  deriving DecidableEq

/-- Go `StructTypeDef`. -/
structure StructTypeDef where
  type : String
  name : String
  comment : String
  fields : List StructFieldDef
  deriving DecidableEq

/-- Go `ArrayTypeDef`: `items` is the item-type reference. -/
structure ArrayTypeDef where
  type : String
  name : String
  comment : String
  items : String
  deriving DecidableEq

/-- Go `MapTypeDef`: `keys` and `items` are the key/item type references. -/
structure MapTypeDef where
  type : String
  name : String
  comment : String
  keys : String
  items : String
  deriving DecidableEq

/-- Go `EnumElementDef`. -/
structure EnumElementDef where
  symbol : String
  comment : String
  deriving DecidableEq

/-- Go `EnumTypeDef`. -/
structure EnumTypeDef where
  type : String
  name : String
  comment : String
  elements : List EnumElementDef
  deriving DecidableEq

/-- Go `UnionTypeDef`: `variants` is the ordered list of variant type
references appended by `UnionTypeBuilder.Variant`. -/
structure UnionTypeDef where
  type : String
  name : String
  comment : String
  variants : List String
  deriving DecidableEq

/-- The Go `Type` record carries a `Variant` tag plus one pointer per variant;
only the pointer matching the tag is populated.  It is embedded as a genuine
sum type, one constructor per variant populated by the builders in
schemabuilder.go. -/
inductive Ty where
  | aliasT : AliasTypeDef → Ty
  | str : StringTypeDef → Ty
  | number : NumberTypeDef → Ty
  | struct : StructTypeDef → Ty
  | array : ArrayTypeDef → Ty
  | map : MapTypeDef → Ty
  | enum : EnumTypeDef → Ty
  | union : UnionTypeDef → Ty
  deriving DecidableEq

/-- Modelled from the spec: the vendored helper `TypeInfo` (defined in
ardielle-go outside src/) projects a Type descriptor to its common
attributes, which the spec (section 3) lists as own name, supertype name and
optional comment, uniformly over the eight variants. -/
def TypeInfo : Ty → String × String × String
  | .aliasT a => (a.name, a.type, a.comment)
  | .str s => (s.name, s.type, s.comment)
  | .number n => (n.name, n.type, n.comment)
  | .struct s => (s.name, s.type, s.comment)
  | .array a => (a.name, a.type, a.comment)
  | .map m => (m.name, m.type, m.comment)
  | .enum e => (e.name, e.type, e.comment)
  | .union u => (u.name, u.type, u.comment)

/-- Own name of a Type (first component of `TypeInfo`). -/
def tyName (t : Ty) : String := (TypeInfo t).1

/-- Supertype reference of a Type (second component of `TypeInfo`). -/
def tySuper (t : Ty) : String := (TypeInfo t).2.1

/-- Modelled from the spec: the generated table `namesBaseType` (defined in
ardielle-go outside src/) whose values seed the resolved set in
`SchemaBuilder.Build`.  Spec sections 3 and 4.3: the fixed closed set of Base
Type names, seeded as already resolved. -/
def namesBaseType : List String :=
  ["Bool", "Int8", "Int16", "Int32", "Int64", "Float32", "Float64",
   "String", "Bytes", "Timestamp", "Symbol", "UUID",
   "Struct", "Array", "Map", "Enum", "Union", "Any"]

/-- Direct embedding of `SchemaBuilder.isBaseType` (three switch case groups
plus default). -/
def isBaseType (name : String) : Bool :=
  if name = "Bool" ∨ name = "Int8" ∨ name = "Int16" ∨ name = "Int32" ∨
     name = "Int64" ∨ name = "Float32" ∨ name = "Float64" then true
  else if name = "String" ∨ name = "Bytes" ∨ name = "Timestamp" ∨
          name = "Symbol" ∨ name = "UUID" then true
  else if name = "Struct" ∨ name = "Array" ∨ name = "Map" ∨ name = "Enum" ∨
          name = "Union" ∨ name = "Any" then true
  else false

/-- Go map lookup over an insertion-ordered association list: a later
insertion of the same key shadows an earlier one, matching `all[name] = t`
performed in insertion order in `SchemaBuilder.Build`. -/
def mapGet (m : List (String × Ty)) (key : String) : Option Ty :=
  match m with
  | [] => none
  | (k, v) :: rest =>
    match mapGet rest key with
    | some r => some r
    | none => if k = key then some v else none

/-- The name-to-descriptor mapping built by the first loop of
`SchemaBuilder.Build`: each declared type is inserted under its `TypeInfo`
name, in declaration order. -/
def buildAllMap (ts : List Ty) : List (String × Ty) :=
  ts.map fun t => (tyName t, t)

deriving instance DecidableEq for Except

/-- Outcomes the Go resolver can reach besides a result: unbounded recursion
(no fuel bound exists in the Go code; exhaustion of any chosen fuel models
it) and a nil-pointer dereference panic. -/
inductive RErr where
  | outOfFuel
  | nilPanic
  deriving DecidableEq

/-- The mutable state threaded through `SchemaBuilder.resolve`: the output
slice `ordered` and the `resolved` name set (a Go `map[string]bool` whose
entries are only ever set to true; membership is what matters). -/
structure RState where
  ordered : List Ty
  resolved : List String
  deriving DecidableEq

/-- One pending activity of the mutually recursive Go resolver:
`.res name super` is a `sb.resolve(ordered, resolved, all, name, super)`
call, `.ref r` is a `sb.resolveRef(ordered, resolved, all, r)` call, and
`.fields fs` is the remaining iterations of the field loop inside the
`case "Struct"` branch of `resolve`. -/
inductive RTask where
  | res (name super : String)
  | ref (r : String)
  | fields (fs : List StructFieldDef)
  deriving DecidableEq

/-- Fuel-indexed interpreter for the mutually recursive pair
`SchemaBuilder.resolve` / `SchemaBuilder.resolveRef` (schemabuilder.go lines
90-121).  Each case mirrors the Go body:
`.res`: return unchanged when the name is already resolved or is a Base Type;
otherwise look up the descriptor, dispatch on the supertype string (the
eleven scalar cases, then "Array"/"Map"/"Struct" reading the matching
payload, then the default which resolves the supertype as a reference), mark
the name resolved and append the descriptor.
`.ref`: skip Base Types, look the name up (Go dereferences a nil `*Type`
when the lookup misses: `.nilPanic`) and resolve it under its own supertype.
`.fields`: the field loop, resolving each field's `Type` reference in order.
A payload mismatch (supertype tag "Array"/"Map"/"Struct" on a descriptor of
a different variant) dereferences a nil payload pointer in Go: `.nilPanic`.
The lookup inside `.res` cannot miss when reached from `Build` (the names
passed in are keys of `all`); its `.nilPanic` branch is unreachable there. -/
def step : Nat → RState → List (String × Ty) → RTask → Except RErr RState
  | 0, _, _, _ => .error .outOfFuel
  | fuel + 1, st, all, .res name super =>
    if name ∈ st.resolved ∨ isBaseType name = true then .ok st
    else
      match mapGet all name with
      | none => .error .nilPanic
      | some t =>
        let after : Except RErr RState :=
          if super = "String" ∨ super = "Bytes" ∨ super = "Bool" ∨
             super = "Int8" ∨ super = "Int16" ∨ super = "Int32" ∨
             super = "Int64" ∨ super = "Float32" ∨ super = "Float64" ∨
             super = "UUID" ∨ super = "Timestamp" then .ok st
          else if super = "Array" then
            match t with
            | .array a => step fuel st all (.ref a.items)
            | _ => .error .nilPanic
          else if super = "Map" then
            match t with
            | .map m =>
              (step fuel st all (.ref m.items)).bind fun st1 =>
                step fuel st1 all (.ref m.keys)
            | _ => .error .nilPanic
          else if super = "Struct" then
            match t with
            | .struct s => step fuel st all (.fields s.fields)
            | _ => .error .nilPanic
          else step fuel st all (.ref super)
        after.bind fun st2 => .ok ⟨st2.ordered ++ [t], name :: st2.resolved⟩
  | fuel + 1, st, all, .ref r =>
    if isBaseType r = true then .ok st
    else
      match mapGet all r with
      | none => .error .nilPanic
      | some t => step fuel st all (.res r (tySuper t))
  | _ + 1, st, _, .fields [] => .ok st
  | fuel + 1, st, all, .fields (f :: fs) =>
    (step fuel st all (.ref f.type)).bind fun st1 =>
      step fuel st1 all (.fields fs)

/-- The second loop of `SchemaBuilder.Build`: walk the declared types in
append order, resolving each. -/
def buildLoop (fuel : Nat) (all : List (String × Ty)) :
    RState → List Ty → Except RErr RState
  | st, [] => .ok st
  | st, t :: ts =>
    (step fuel st all (.res (tyName t) (tySuper t))).bind fun st1 =>
      buildLoop fuel all st1 ts

/-- Go `Schema` (the fields assembled by `SchemaBuilder`); the Go field
`Namespace` is named `ns` here. -/
structure ExceptionDef where
  type : String
  comment : String
  deriving DecidableEq

/-- Go `ResourceInput` as populated by `ResourceBuilder.Input`.  The untyped
default value (`interface{}` in Go) is omitted: no modelled operation
consults it. -/
structure ResourceInput where
  name : String
  type : String
  comment : String
  pathParam : Bool
  queryParam : String
  header : String
  optional : Bool
  deriving DecidableEq

/-- Go `ResourceOutput` as populated by `ResourceBuilder.Output`. -/
structure ResourceOutput where
  name : String
  type : String
  comment : String
  header : String
  optional : Bool
  deriving DecidableEq

/-- Go `ResourceAuth` as populated by `ResourceBuilder.Auth`. -/
structure ResourceAuth where
  authenticate : Bool
  action : String
  resource : String
  domain : String
  deriving DecidableEq

/-- Go `Resource`.  `exceptions` is a Go `map[string]*ExceptionDef`,
embedded as an association list with in-place overwrite on insert; the nil
map of a fresh builder is the empty list. -/
structure Resource where
  type : String
  method : String
  path : String
  comment : String
  inputs : List ResourceInput
  outputs : List ResourceOutput
  auth : Option ResourceAuth
  expected : String
  exceptions : List (String × ExceptionDef)
  name : String
  deriving DecidableEq

/-- Go `Schema`: the prototype assembled by `SchemaBuilder` (namespace is
`ns` here; version is an optional int). -/
structure Schema where
  name : String
  ns : String
  version : Option Int
  base : String
  comment : String
  types : List Ty
  resources : List Resource
  deriving DecidableEq

/-- Direct embedding of `SchemaBuilder.Build` (schemabuilder.go lines
58-75): build the name map, seed the resolved set with every Base Type name,
resolve every declared type in append order, and replace the Types sequence
with the resolver's output.  The Go function returns `*Schema`
unconditionally and can fail only by panicking or recursing forever, which
the error cases model. -/
def Build (fuel : Nat) (proto : Schema) : Except RErr Schema :=
  let all := buildAllMap proto.types
  (buildLoop fuel all { ordered := [], resolved := namesBaseType }
      proto.types).map
    fun st => { proto with types := st.ordered }

/-! ### Descriptor builders (the ones the claims exercise) -/

/-- `NewStringTypeBuilder`: fresh state with supertype "String" and the
given name; all constraints at their Go zero values. -/
def NewStringTypeBuilder (name : String) : StringTypeDef :=
  { type := "String", name := name, comment := "", pattern := "",
    maxSize := none, minSize := none, values := none }

/-- One chained configuration call on a `StringTypeBuilder`.  The builder
has no setter for `values`. -/
inductive SOp where
  | comment (c : String)
  | pattern (p : String)
  | maxSize (n : Int)
  | minSize (n : Int)
  deriving DecidableEq

/-- Apply one `StringTypeBuilder` setter (each Go setter stores its argument;
`MaxSize`/`MinSize` store a non-nil pointer). -/
def applySOp (st : StringTypeDef) : SOp → StringTypeDef
  | .comment c => { st with comment := c }
  | .pattern p => { st with pattern := p }
  | .maxSize n => { st with maxSize := some n }
  | .minSize n => { st with minSize := some n }

/-- Apply a chain of `StringTypeBuilder` setters in call order. -/
def applySOps (ops : List SOp) (st : StringTypeDef) : StringTypeDef :=
  ops.foldl applySOp st

/-- Direct embedding of `StringTypeBuilder.Build` (lines 163-176): with no
pattern, no size bounds and no values, collapse to an Alias descriptor
carrying supertype, name and comment; otherwise emit the String descriptor. -/
def stringBuild (st : StringTypeDef) : Ty :=
  if st.pattern = "" ∧ st.maxSize = none ∧ st.minSize = none ∧
     st.values = none then
    .aliasT { type := st.type, name := st.name, comment := st.comment }
  else
    .str st

/-- `NewStructTypeBuilder supertype name`. -/
def NewStructTypeBuilder (supertype name : String) : StructTypeDef :=
  { type := supertype, name := name, comment := "", fields := [] }

/-- `StructTypeBuilder.Field`: append a plain field (inline keys/items stay
at the Go zero value, the empty string). -/
def structBuilderField (st : StructTypeDef) (fname ftype : String)
    (optional : Bool) (comment : String) : StructTypeDef :=
  { st with fields := st.fields ++
      [{ name := fname, type := ftype, optional := optional,
         comment := comment, keys := "", items := "" }] }

/-- `StructTypeBuilder.MapField` (lines 282-286): the field's type reference
is the Base Type name "Map"; the key/item references go into the field's
`keys`/`items`. -/
def structBuilderMapField (st : StructTypeDef) (fname fkeys fitems : String)
    (optional : Bool) (comment : String) : StructTypeDef :=
  { st with fields := st.fields ++
      [{ name := fname, type := "Map", optional := optional,
         comment := comment, keys := fkeys, items := fitems }] }

/-- `StructTypeBuilder.ArrayField`: the field's type reference is "Array";
the item reference goes into the field's `items`. -/
def structBuilderArrayField (st : StructTypeDef) (fname fitems : String)
    (optional : Bool) (comment : String) : StructTypeDef :=
  { st with fields := st.fields ++
      [{ name := fname, type := "Array", optional := optional,
         comment := comment, keys := "", items := fitems }] }

/-- `StructTypeBuilder.Build`. -/
def structBuilderBuild (st : StructTypeDef) : Ty := .struct st

/-- `NewUnionTypeBuilder supertype name`. -/
def NewUnionTypeBuilder (supertype name : String) : UnionTypeDef :=
  { type := supertype, name := name, comment := "", variants := [] }

/-- `UnionTypeBuilder.Variant` (lines 403-406): append a variant type
reference. -/
def unionBuilderVariant (u : UnionTypeDef) (variant : String) : UnionTypeDef :=
  { u with variants := u.variants ++ [variant] }

/-- `UnionTypeBuilder.Build`. -/
def unionBuilderBuild (u : UnionTypeDef) : Ty := .union u

/-- `NewArrayTypeBuilder supertype name`. -/
def NewArrayTypeBuilder (supertype name : String) : ArrayTypeDef :=
  { type := supertype, name := name, comment := "", items := "" }

/-- `ArrayTypeBuilder.Items`. -/
def arrayBuilderItems (a : ArrayTypeDef) (items : String) : ArrayTypeDef :=
  { a with items := items }

/-- `ArrayTypeBuilder.Build`. -/
def arrayBuilderBuild (a : ArrayTypeDef) : Ty := .array a

/-- `NewMapTypeBuilder supertype name`. -/
def NewMapTypeBuilder (supertype name : String) : MapTypeDef :=
  { type := supertype, name := name, comment := "", keys := "", items := "" }

/-- `MapTypeBuilder.Keys`. -/
def mapBuilderKeys (m : MapTypeDef) (keys : String) : MapTypeDef :=
  { m with keys := keys }

/-- `MapTypeBuilder.Items`. -/
def mapBuilderItems (m : MapTypeDef) (items : String) : MapTypeDef :=
  { m with items := items }

/-- `MapTypeBuilder.Build`. -/
def mapBuilderBuild (m : MapTypeDef) : Ty := .map m

/-- `NewAliasTypeBuilder supertype name`. -/
def NewAliasTypeBuilder (supertype name : String) : AliasTypeDef :=
  { type := supertype, name := name, comment := "" }

/-- `AliasTypeBuilder.Build`. -/
def aliasBuilderBuild (a : AliasTypeDef) : Ty := .aliasT a

/-! ### Resource builder -/

/-- `NewResourceBuilder typename method path`: expected outcome defaults to
"OK"; the exceptions map starts nil (empty). -/
def NewResourceBuilder (typename method path : String) : Resource :=
  { type := typename, method := method, path := path, comment := "",
    inputs := [], outputs := [], auth := none, expected := "OK",
    exceptions := [], name := "" }

/-- Insert into the Go exceptions map: an existing entry under the same
symbol is overwritten in place, otherwise the entry is added. -/
def exInsert : List (String × ExceptionDef) → String → ExceptionDef →
    List (String × ExceptionDef)
  | [], sym, e => [(sym, e)]
  | (k, v) :: rest, sym, e =>
    if k = sym then (k, e) :: rest else (k, v) :: exInsert rest sym e

/-- Lookup in the exceptions map. -/
def exLookup : List (String × ExceptionDef) → String → Option ExceptionDef
  | [], _ => none
  | (k, v) :: rest, sym => if k = sym then some v else exLookup rest sym

/-- One chained call on a `ResourceBuilder`. -/
inductive ROp where
  | comment (c : String)
  | input (name typename : String) (pparam : Bool) (qparam header : String)
      (optional : Bool) (comment : String)
  | output (name typename header : String) (optional : Bool) (comment : String)
  | auth (action resource : String) (authn : Bool) (domain : String)
  | expected (sym : String)
  | exception (sym typename comment : String)
  | nameOp (sym : String)
  deriving DecidableEq

/-- Apply one `ResourceBuilder` call to the prototype, mirroring the Go
method bodies; `Exception` (lines 453-460) stores under the outcome symbol,
replacing any prior entry. -/
def applyROp (rb : Resource) : ROp → Resource
  | .comment c => { rb with comment := c }
  | .input n t pp qp hd opt c =>
    { rb with inputs := rb.inputs ++
        [{ name := n, type := t, comment := c, pathParam := pp,
           queryParam := qp, header := hd, optional := opt }] }
  | .output n t hd opt c =>
    { rb with outputs := rb.outputs ++
        [{ name := n, type := t, comment := c, header := hd,
           optional := opt }] }
  | .auth act res authn dom =>
    { rb with auth := some { authenticate := authn, action := act,
                             resource := res, domain := dom } }
  | .expected sym => { rb with expected := sym }
  | .exception sym t c =>
    { rb with exceptions := exInsert rb.exceptions sym { type := t, comment := c } }
  | .nameOp sym => { rb with name := sym }

/-- Apply a chain of `ResourceBuilder` calls in order (`Build` returns the
prototype unchanged). -/
def applyROps (ops : List ROp) (rb : Resource) : Resource :=
  ops.foldl applyROp rb

/-! ### Reference relations used by the claims -/

/-- The references the resolver actually consults for a descriptor,
mirroring the supertype dispatch of `resolve`: none for the eleven scalar
cases; the item reference when the supertype tag is "Array"; item then key
when "Map"; the field type references when "Struct"; the supertype itself
otherwise.  (A tag/variant mismatch makes the resolver panic, so the
mismatch arms are unreachable for descriptors the resolver emits.) -/
def consultedDeps (t : Ty) : List String :=
  let super := tySuper t
  if super = "String" ∨ super = "Bytes" ∨ super = "Bool" ∨
     super = "Int8" ∨ super = "Int16" ∨ super = "Int32" ∨
     super = "Int64" ∨ super = "Float32" ∨ super = "Float64" ∨
     super = "UUID" ∨ super = "Timestamp" then []
  else if super = "Array" then
    match t with
    | .array a => [a.items]
    | _ => []
  else if super = "Map" then
    match t with
    | .map m => [m.items, m.keys]
    | _ => []
  else if super = "Struct" then
    match t with
    | .struct s => s.fields.map fun f => f.type
    | _ => []
  else [super]

/-- The structural references of a descriptor as the claims word them
(supertype; array item type; map key and item types; struct field types),
read off the descriptor itself rather than off the resolver's dispatch.
This is the claim-side notion, kept separate from `consultedDeps` so the
two can be compared. -/
def claimRefs (t : Ty) : List String :=
  tySuper t ::
    (match t with
     | .array a => [a.items]
     | .map m => [m.keys, m.items]
     | .struct s => s.fields.map fun f => f.type
     | _ => [])

/-- Consulted dependencies of a declared name (empty when undeclared). -/
def depsName (all : List (String × Ty)) (n : String) : List String :=
  match mapGet all n with
  | some t => consultedDeps t
  | none => []

/-! ### Basic lemmas about the embedded map and base-type table -/

theorem mapGet_mem {m : List (String × Ty)} {k : String} {v : Ty}
    (h : mapGet m k = some v) : (k, v) ∈ m := by
  induction m with
  | nil => simp [mapGet] at h
  | cons p rest ih =>
    obtain ⟨k0, v0⟩ := p
    simp only [mapGet] at h
    cases hr : mapGet rest k with
    | some r =>
      rw [hr] at h
      have h2 : some r = some v := h
      injection h2 with h3
      exact List.mem_cons_of_mem _ (ih (by rw [hr, h3]))
    | none =>
      rw [hr] at h
      have h2 : (if k0 = k then some v0 else none) = some v := h
      by_cases hk : k0 = k
      · subst hk
        rw [if_pos rfl] at h2
        injection h2 with h3
        subst h3
        exact List.mem_cons_self _ _
      · rw [if_neg hk] at h2
        exact absurd h2 (by simp)

theorem mapGet_eq_none {m : List (String × Ty)} {k : String}
    (h : k ∉ m.map Prod.fst) : mapGet m k = none := by
  induction m with
  | nil => rfl
  | cons p rest ih =>
    obtain ⟨k0, v0⟩ := p
    simp only [List.map_cons, List.mem_cons] at h
    push_neg at h
    simp only [mapGet, ih h.2]
    rw [if_neg fun hh => h.1 hh.symm]

theorem mapGet_isSome_of_mem_keys {m : List (String × Ty)} {k : String}
    (h : k ∈ m.map Prod.fst) : ∃ v, mapGet m k = some v := by
  induction m with
  | nil => simp at h
  | cons p rest ih =>
    obtain ⟨k0, v0⟩ := p
    simp only [mapGet]
    cases hr : mapGet rest k with
    | some r => exact ⟨r, rfl⟩
    | none =>
      simp only [List.map_cons, List.mem_cons] at h
      rcases h with h | h
      · exact ⟨v0, by rw [if_pos h.symm]⟩
      · rcases ih h with ⟨v, hv⟩
        rw [hv] at hr
        exact absurd hr (by simp)

theorem mapGet_of_nodup {m : List (String × Ty)}
    (hnd : (m.map Prod.fst).Nodup) {k : String} {v : Ty}
    (h : (k, v) ∈ m) : mapGet m k = some v := by
  induction m with
  | nil => simp at h
  | cons p rest ih =>
    obtain ⟨k0, v0⟩ := p
    simp only [List.map_cons, List.nodup_cons] at hnd
    rcases List.mem_cons.1 h with h0 | h0
    · injection h0 with h1 h2
      subst h1; subst h2
      simp [mapGet, mapGet_eq_none hnd.1]
    · have hrest : mapGet rest k = some v := ih hnd.2 h0
      simp only [mapGet, hrest]

theorem buildAllMap_keys (ts : List Ty) :
    (buildAllMap ts).map Prod.fst = ts.map tyName := by
  simp [buildAllMap, List.map_map, Function.comp]

theorem buildAllMap_hall (ts : List Ty) :
    ∀ p ∈ buildAllMap ts, tyName p.2 = p.1 := by
  intro p hp
  simp only [buildAllMap, List.mem_map] at hp
  rcases hp with ⟨t, _, rfl⟩
  rfl

theorem mem_of_mem_buildAllMap {ts : List Ty} {p : String × Ty}
    (hp : p ∈ buildAllMap ts) : p.2 ∈ ts := by
  simp only [buildAllMap, List.mem_map] at hp
  rcases hp with ⟨t, ht, rfl⟩
  exact ht

theorem mem_buildAllMap_of_mem {ts : List Ty} {t : Ty} (ht : t ∈ ts) :
    (tyName t, t) ∈ buildAllMap ts := by
  simp only [buildAllMap, List.mem_map]
  exact ⟨t, ht, rfl⟩

theorem mem_namesBaseType_iff (n : String) :
    n ∈ namesBaseType ↔ isBaseType n = true := by
  constructor
  · intro h
    simp only [namesBaseType, List.mem_cons, List.not_mem_nil, or_false] at h
    rcases h with rfl | rfl | rfl | rfl | rfl | rfl | rfl | rfl | rfl | rfl |
      rfl | rfl | rfl | rfl | rfl | rfl | rfl | rfl <;> decide
  · intro h
    unfold isBaseType at h
    split_ifs at h with h1 h2 h3
    · rcases h1 with rfl | rfl | rfl | rfl | rfl | rfl | rfl <;> decide
    · rcases h2 with rfl | rfl | rfl | rfl | rfl <;> decide
    · rcases h3 with rfl | rfl | rfl | rfl | rfl | rfl <;> decide

theorem append_singleton_split {α : Type} {A : List α} {t : α} {l1 : List α}
    {u : α} {l2 : List α} (h : A ++ [t] = l1 ++ u :: l2) :
    (l1 = A ∧ u = t ∧ l2 = []) ∨
      ∃ l2x, A = l1 ++ u :: l2x ∧ l2 = l2x ++ [t] := by
  rcases List.eq_nil_or_concat l2 with rfl | ⟨l2x, t2, rfl⟩
  · left
    have h2 : A ++ [t] = l1 ++ [u] := h
    have h3 := List.append_inj' h2 (by simp)
    refine ⟨h3.1.symm, ?_, rfl⟩
    have h4 := h3.2
    injection h4 with h5
    exact h5.symm
  · right
    rw [List.concat_eq_append] at h
    have h2 : A ++ [t] = (l1 ++ u :: l2x) ++ [t2] := by
      rw [h]; simp
    have h3 := List.append_inj' h2 (by simp)
    have h4 := h3.2
    injection h4 with h5
    subst h5
    exact ⟨l2x, h3.1, by rw [List.concat_eq_append]⟩

/-! ### Destructuring a successful resolver step -/

/-- Shape of a successful pass through the supertype switch of `resolve`
for descriptor `t` under supertype tag `super`, ending in state `st2`
(the state just before `t` is appended). -/
def DispatchOk (fuel : Nat) (st : RState) (all : List (String × Ty))
    (t : Ty) (super : String) (st2 : RState) : Prop :=
  ((super = "String" ∨ super = "Bytes" ∨ super = "Bool" ∨ super = "Int8" ∨
    super = "Int16" ∨ super = "Int32" ∨ super = "Int64" ∨
    super = "Float32" ∨ super = "Float64" ∨ super = "UUID" ∨
    super = "Timestamp") ∧ st2 = st) ∨
  (super = "Array" ∧ ∃ a, t = .array a ∧
    step fuel st all (.ref a.items) = .ok st2) ∨
  (super = "Map" ∧ ∃ mm st1, t = .map mm ∧
    step fuel st all (.ref mm.items) = .ok st1 ∧
    step fuel st1 all (.ref mm.keys) = .ok st2) ∨
  (super = "Struct" ∧ ∃ s, t = .struct s ∧
    step fuel st all (.fields s.fields) = .ok st2) ∨
  (¬(super = "String" ∨ super = "Bytes" ∨ super = "Bool" ∨ super = "Int8" ∨
     super = "Int16" ∨ super = "Int32" ∨ super = "Int64" ∨
     super = "Float32" ∨ super = "Float64" ∨ super = "UUID" ∨
     super = "Timestamp") ∧ super ≠ "Array" ∧ super ≠ "Map" ∧
   super ≠ "Struct" ∧ step fuel st all (.ref super) = .ok st2)

theorem res_ok_elim {all : List (String × Ty)} {fuel : Nat}
    {name super : String} {st st' : RState}
    (hstep : step (fuel + 1) st all (.res name super) = .ok st') :
    ((name ∈ st.resolved ∨ isBaseType name = true) ∧ st' = st) ∨
    (¬(name ∈ st.resolved ∨ isBaseType name = true) ∧
      ∃ t st2, mapGet all name = some t ∧
        DispatchOk fuel st all t super st2 ∧
        st' = ⟨st2.ordered ++ [t], name :: st2.resolved⟩) := by
  by_cases hres : name ∈ st.resolved ∨ isBaseType name = true
  · simp only [step] at hstep
    rw [if_pos hres] at hstep
    left
    refine ⟨hres, ?_⟩
    have h2 : Except.ok (ε := RErr) st = .ok st' := hstep
    injection h2 with h3
    exact h3.symm
  · right
    refine ⟨hres, ?_⟩
    cases hget : mapGet all name with
    | none =>
      simp only [step, hget] at hstep
      rw [if_neg hres] at hstep
      exact absurd hstep (by simp)
    | some t =>
      simp only [step, hget] at hstep
      rw [if_neg hres] at hstep
      by_cases hc1 : super = "String" ∨ super = "Bytes" ∨ super = "Bool" ∨
          super = "Int8" ∨ super = "Int16" ∨ super = "Int32" ∨
          super = "Int64" ∨ super = "Float32" ∨ super = "Float64" ∨
          super = "UUID" ∨ super = "Timestamp"
      · rw [if_pos hc1] at hstep
        simp only [Except.bind] at hstep
        injection hstep with h2
        exact ⟨t, st, rfl, Or.inl ⟨hc1, rfl⟩, h2.symm⟩
      · rw [if_neg hc1] at hstep
        by_cases hc2 : super = "Array"
        · rw [if_pos hc2] at hstep
          cases t with
          | array a =>
            cases hs1 : step fuel st all (.ref a.items) with
            | error e => simp [hs1, Except.bind] at hstep
            | ok st2 =>
              simp only [hs1, Except.bind] at hstep
              injection hstep with h2
              exact ⟨.array a, st2, rfl, Or.inr (Or.inl ⟨hc2, a, rfl, hs1⟩),
                h2.symm⟩
          | aliasT x => exact absurd hstep (by simp [Except.bind])
          | str x => exact absurd hstep (by simp [Except.bind])
          | number x => exact absurd hstep (by simp [Except.bind])
          | struct x => exact absurd hstep (by simp [Except.bind])
          | map x => exact absurd hstep (by simp [Except.bind])
          | enum x => exact absurd hstep (by simp [Except.bind])
          | union x => exact absurd hstep (by simp [Except.bind])
        · rw [if_neg hc2] at hstep
          by_cases hc3 : super = "Map"
          · rw [if_pos hc3] at hstep
            cases t with
            | map mm =>
              cases hs1 : step fuel st all (.ref mm.items) with
              | error e => simp [hs1, Except.bind] at hstep
              | ok st1 =>
                simp only [hs1, Except.bind] at hstep
                cases hs2 : step fuel st1 all (.ref mm.keys) with
                | error e => simp [hs2, Except.bind] at hstep
                | ok st2 =>
                  simp only [hs2, Except.bind] at hstep
                  injection hstep with h2
                  exact ⟨.map mm, st2, rfl,
                    Or.inr (Or.inr (Or.inl ⟨hc3, mm, st1, rfl, hs1, hs2⟩)),
                    h2.symm⟩
            | aliasT x => exact absurd hstep (by simp [Except.bind])
            | str x => exact absurd hstep (by simp [Except.bind])
            | number x => exact absurd hstep (by simp [Except.bind])
            | struct x => exact absurd hstep (by simp [Except.bind])
            | array x => exact absurd hstep (by simp [Except.bind])
            | enum x => exact absurd hstep (by simp [Except.bind])
            | union x => exact absurd hstep (by simp [Except.bind])
          · rw [if_neg hc3] at hstep
            by_cases hc4 : super = "Struct"
            · rw [if_pos hc4] at hstep
              cases t with
              | struct s =>
                cases hs1 : step fuel st all (.fields s.fields) with
                | error e => simp [hs1, Except.bind] at hstep
                | ok st2 =>
                  simp only [hs1, Except.bind] at hstep
                  injection hstep with h2
                  exact ⟨.struct s, st2, rfl,
                    Or.inr (Or.inr (Or.inr (Or.inl ⟨hc4, s, rfl, hs1⟩))),
                    h2.symm⟩
              | aliasT x => exact absurd hstep (by simp [Except.bind])
              | str x => exact absurd hstep (by simp [Except.bind])
              | number x => exact absurd hstep (by simp [Except.bind])
              | array x => exact absurd hstep (by simp [Except.bind])
              | map x => exact absurd hstep (by simp [Except.bind])
              | enum x => exact absurd hstep (by simp [Except.bind])
              | union x => exact absurd hstep (by simp [Except.bind])
            · rw [if_neg hc4] at hstep
              cases hs1 : step fuel st all (.ref super) with
              | error e =>
                rw [hs1] at hstep
                exact absurd hstep (by simp [Except.bind])
              | ok st2 =>
                rw [hs1] at hstep
                simp only [Except.bind] at hstep
                injection hstep with h2
                exact ⟨t, st2, rfl,
                  Or.inr (Or.inr (Or.inr (Or.inr ⟨hc1, hc2, hc3, hc4, hs1⟩))),
                  h2.symm⟩

theorem ref_ok_elim {all : List (String × Ty)} {fuel : Nat} {r : String}
    {st st' : RState}
    (hstep : step (fuel + 1) st all (.ref r) = .ok st') :
    (isBaseType r = true ∧ st' = st) ∨
    (isBaseType r = false ∧ ∃ t, mapGet all r = some t ∧
      step fuel st all (.res r (tySuper t)) = .ok st') := by
  by_cases hb : isBaseType r = true
  · simp only [step] at hstep
    rw [if_pos hb] at hstep
    left
    refine ⟨hb, ?_⟩
    have h2 : Except.ok (ε := RErr) st = .ok st' := hstep
    injection h2 with h3
    exact h3.symm
  · right
    have hb2 : isBaseType r = false := by
      cases h2 : isBaseType r with
      | true => exact absurd h2 hb
      | false => rfl
    refine ⟨hb2, ?_⟩
    cases hget : mapGet all r with
    | none =>
      simp only [step, hget] at hstep
      rw [if_neg hb] at hstep
      exact absurd hstep (by simp)
    | some t =>
      simp only [step, hget] at hstep
      rw [if_neg hb] at hstep
      exact ⟨t, rfl, hstep⟩

theorem fields_cons_ok_elim {all : List (String × Ty)} {fuel : Nat}
    {f : StructFieldDef} {fs : List StructFieldDef} {st st' : RState}
    (hstep : step (fuel + 1) st all (.fields (f :: fs)) = .ok st') :
    ∃ st1, step fuel st all (.ref f.type) = .ok st1 ∧
      step fuel st1 all (.fields fs) = .ok st' := by
  simp only [step] at hstep
  cases hs1 : step fuel st all (.ref f.type) with
  | error e => rw [hs1] at hstep; exact absurd hstep (by simp [Except.bind])
  | ok st1 =>
    rw [hs1] at hstep
    simp only [Except.bind] at hstep
    exact ⟨st1, rfl, hstep⟩

theorem fields_nil_ok_elim {all : List (String × Ty)} {fuel : Nat}
    {st st' : RState}
    (hstep : step (fuel + 1) st all (.fields []) = .ok st') : st' = st := by
  simp only [step] at hstep
  have h2 : Except.ok (ε := RErr) st = .ok st' := hstep
  injection h2 with h3
  exact h3.symm

theorem step_zero_not_ok {all : List (String × Ty)} {task : RTask}
    {st st' : RState} (hstep : step 0 st all task = .ok st') : False := by
  simp [step] at hstep

/-! ### Emitted descriptors never carry a Base Type name -/

/-- Weak resolver invariant: every emitted descriptor has a non-Base-Type
name (the entry guard of `resolve` filters Base Type names before any
append). -/
def LInv (st : RState) : Prop :=
  ∀ t ∈ st.ordered, isBaseType (tyName t) = false

theorem step_light {all : List (String × Ty)}
    (hall : ∀ p ∈ all, tyName p.2 = p.1) :
    ∀ fuel task st st', step fuel st all task = .ok st' → LInv st →
      LInv st' := by
  intro fuel
  induction fuel with
  | zero => intro task st st' hstep; exact absurd hstep (by simp [step])
  | succ fuel ih =>
    intro task st st' hstep hinv
    cases task with
    | res name super =>
      rcases res_ok_elim hstep with ⟨_, rfl⟩ | ⟨hres, t, st2, hget, hd, rfl⟩
      · exact hinv
      · push_neg at hres
        have hnb : isBaseType name = false := by
          cases h2 : isBaseType name with
          | true => exact absurd h2 hres.2
          | false => rfl
        have htn : tyName t = name := hall _ (mapGet_mem hget)
        have hinv2 : LInv st2 := by
          rcases hd with ⟨_, rfl⟩ | ⟨_, a, rfl, hs1⟩ | ⟨_, mm, st1, rfl, hs1, hs2⟩ |
            ⟨_, s, rfl, hs1⟩ | ⟨_, _, _, _, hs1⟩
          · exact hinv
          · exact ih _ _ _ hs1 hinv
          · exact ih _ _ _ hs2 (ih _ _ _ hs1 hinv)
          · exact ih _ _ _ hs1 hinv
          · exact ih _ _ _ hs1 hinv
        intro u hu
        simp only [List.mem_append, List.mem_singleton] at hu
        rcases hu with hu | hu
        · exact hinv2 u hu
        · rw [hu, htn]; exact hnb
    | ref r =>
      rcases ref_ok_elim hstep with ⟨_, rfl⟩ | ⟨_, t, hget, hs⟩
      · exact hinv
      · exact ih _ _ _ hs hinv
    | fields fs =>
      cases fs with
      | nil => rw [fields_nil_ok_elim hstep]; exact hinv
      | cons f fs =>
        rcases fields_cons_ok_elim hstep with ⟨st1, hs1, hs2⟩
        exact ih _ _ _ hs2 (ih _ _ _ hs1 hinv)

theorem buildLoop_light {all : List (String × Ty)}
    (hall : ∀ p ∈ all, tyName p.2 = p.1) :
    ∀ ts fuel st st', buildLoop fuel all st ts = .ok st' → LInv st →
      LInv st' := by
  intro ts
  induction ts with
  | nil =>
    intro fuel st st' hstep hinv
    have h2 : Except.ok (ε := RErr) st = .ok st' := hstep
    injection h2 with h3
    rw [← h3]; exact hinv
  | cons t ts ih =>
    intro fuel st st' hstep hinv
    simp only [buildLoop] at hstep
    cases hs1 : step fuel st all (.res (tyName t) (tySuper t)) with
    | error e => rw [hs1] at hstep; exact absurd hstep (by simp [Except.bind])
    | ok st1 =>
      rw [hs1] at hstep
      simp only [Except.bind] at hstep
      exact ih fuel st1 st' hstep (step_light hall fuel _ _ _ hs1 hinv)

/-- Every type in the output of a successful `Build` has a non-Base-Type
name. -/
theorem Build_nonbase {fuel : Nat} {proto s : Schema}
    (h : Build fuel proto = .ok s) :
    ∀ t ∈ s.types, isBaseType (tyName t) = false := by
  unfold Build at h
  cases hb : buildLoop fuel (buildAllMap proto.types)
      { ordered := [], resolved := namesBaseType } proto.types with
  | error e => simp [hb, Except.map] at h
  | ok st =>
    simp only [hb, Except.map] at h
    have hlinv : LInv st :=
      buildLoop_light (buildAllMap_hall proto.types) _ _ _ _ hb
        (by intro u hu; exact absurd hu (List.not_mem_nil u))
    injection h with h2
    rw [← h2]
    intro t ht
    exact hlinv t ht

/-! ### The main resolver invariant -/

/-- Dependencies the resolver consults for a declared name (empty when the
name is undeclared). -/
theorem depsName_eq {all : List (String × Ty)} {n : String} {t : Ty}
    (h : mapGet all n = some t) : depsName all n = consultedDeps t := by
  unfold depsName
  rw [h]

theorem consultedDeps_eq_nil (t : Ty)
    (h : tySuper t = "String" ∨ tySuper t = "Bytes" ∨ tySuper t = "Bool" ∨
      tySuper t = "Int8" ∨ tySuper t = "Int16" ∨ tySuper t = "Int32" ∨
      tySuper t = "Int64" ∨ tySuper t = "Float32" ∨ tySuper t = "Float64" ∨
      tySuper t = "UUID" ∨ tySuper t = "Timestamp") :
    consultedDeps t = [] := by
  simp only [consultedDeps]
  rw [if_pos h]

theorem consultedDeps_eq_items (a : ArrayTypeDef) (h : a.type = "Array") :
    consultedDeps (.array a) = [a.items] := by
  simp [consultedDeps, tySuper, TypeInfo, h]

theorem consultedDeps_eq_mapkeys (m : MapTypeDef) (h : m.type = "Map") :
    consultedDeps (.map m) = [m.items, m.keys] := by
  simp [consultedDeps, tySuper, TypeInfo, h]

theorem consultedDeps_eq_fields (s : StructTypeDef) (h : s.type = "Struct") :
    consultedDeps (.struct s) = s.fields.map fun f => f.type := by
  simp [consultedDeps, tySuper, TypeInfo, h]

theorem consultedDeps_eq_super (t : Ty)
    (h1 : ¬(tySuper t = "String" ∨ tySuper t = "Bytes" ∨ tySuper t = "Bool" ∨
      tySuper t = "Int8" ∨ tySuper t = "Int16" ∨ tySuper t = "Int32" ∨
      tySuper t = "Int64" ∨ tySuper t = "Float32" ∨ tySuper t = "Float64" ∨
      tySuper t = "UUID" ∨ tySuper t = "Timestamp"))
    (h2 : ¬tySuper t = "Array") (h3 : ¬tySuper t = "Map")
    (h4 : ¬tySuper t = "Struct") : consultedDeps t = [tySuper t] := by
  simp only [consultedDeps]
  rw [if_neg h1, if_neg h2, if_neg h3, if_neg h4]

/-- Next element of a call chain: head of the remaining stack, or the
current argument when the stack is exhausted. -/
def nextOf (l : List String) (c : String) : String :=
  match l with
  | [] => c
  | Y :: _ => Y

/-- `Chain all P c` says `P` is a stack of in-flight `resolve` calls
(outermost first) in which each entry's consulted dependencies contain the
next entry, and the innermost entry's dependencies contain the current
argument `c`. -/
def Chain (all : List (String × Ty)) : List String → String → Prop
  | [], _ => True
  | X :: rest, c => nextOf rest c ∈ depsName all X ∧ Chain all rest c

theorem nextOf_append_singleton (P : List String) (c d : String) :
    nextOf (P ++ [c]) d = nextOf P c := by
  cases P <;> rfl

theorem chain_snoc {all : List (String × Ty)} {P : List String}
    {c d : String} (hch : Chain all P c) (hd : d ∈ depsName all c) :
    Chain all (P ++ [c]) d := by
  induction P with
  | nil => exact ⟨hd, trivial⟩
  | cons X P ih =>
    refine ⟨?_, ih hch.2⟩
    show nextOf (P ++ [c]) d ∈ depsName all X
    rw [nextOf_append_singleton]
    exact hch.1

theorem chain_mem {all : List (String × Ty)} {P : List String}
    {c X : String} (hch : Chain all P c) (hX : X ∈ P) :
    ∃ d, d ∈ depsName all X ∧ (d ∈ P ∨ d = c) := by
  induction P with
  | nil => cases hX
  | cons X0 P ih =>
    rcases List.mem_cons.1 hX with rfl | hX2
    · refine ⟨nextOf P c, hch.1, ?_⟩
      cases P with
      | nil => right; rfl
      | cons Y rest =>
        left
        exact List.mem_cons_of_mem _ (List.mem_cons_self _ _)
    · rcases ih hch.2 hX2 with ⟨d, hd1, hd2⟩
      refine ⟨d, hd1, ?_⟩
      rcases hd2 with h | h
      · left; exact List.mem_cons_of_mem _ h
      · right; exact h

/-- The in-flight stack consists of non-Base-Type names not yet marked
resolved. -/
def Pre (P : List String) (st : RState) : Prop :=
  ∀ X ∈ P, isBaseType X = false ∧ X ∉ st.resolved

/-- Main resolver invariant over the threaded state: the resolved set is
exactly the Base Type names plus the emitted names; every emitted descriptor
is the map entry for its own name; emitted names are distinct; and every
emitted descriptor's consulted dependencies are Base Types or names emitted
strictly before it. -/
structure RInv (all : List (String × Ty)) (st : RState) : Prop where
  resolvedIff : ∀ n, n ∈ st.resolved ↔
    (isBaseType n = true ∨ n ∈ st.ordered.map tyName)
  lookupOk : ∀ t ∈ st.ordered, mapGet all (tyName t) = some t
  namesNodup : (st.ordered.map tyName).Nodup
  topo : ∀ l1 t l2, st.ordered = l1 ++ t :: l2 → ∀ d ∈ consultedDeps t,
    isBaseType d = true ∨ d ∈ l1.map tyName

/-- Per-activity precondition: the caller links the activity into the
in-flight chain, and for a `resolve` call the supertype argument agrees with
the looked-up descriptor (which holds for every call site in `Build` once
type names are unique, and holds by construction for `resolveRef`). -/
def RTaskPre (all : List (String × Ty)) (P : List String) : RTask → Prop
  | .res name super => Chain all P name ∧
      ∀ t, mapGet all name = some t → tySuper t = super
  | .ref r => Chain all P r
  | .fields fs => ∀ f ∈ fs, Chain all P f.type

/-- Per-activity postcondition on success. -/
def RTaskPost (P : List String) : RTask → RState → Prop
  | .res name _, st2 => name ∉ P ∧
      (isBaseType name = true ∨ name ∈ st2.resolved)
  | .ref r, st2 => isBaseType r = true ∨ (r ∉ P ∧ r ∈ st2.resolved)
  | .fields fs, st2 => ∀ f ∈ fs,
      isBaseType f.type = true ∨ f.type ∈ st2.resolved

theorem step_sound {all : List (String × Ty)}
    (hall : ∀ p ∈ all, tyName p.2 = p.1) :
    ∀ fuel task st st' P, step fuel st all task = .ok st' → RInv all st →
      Pre P st → RTaskPre all P task →
      RInv all st' ∧ (∀ n ∈ st.resolved, n ∈ st'.resolved) ∧ Pre P st' ∧
        RTaskPost P task st' := by
  intro fuel
  induction fuel with
  | zero =>
    intro task st st' P hstep _ _ _
    exact absurd hstep (by simp [step])
  | succ fuel ih =>
    intro task st st' P hstep hinv hpre htp
    cases task with
    | res name super =>
      obtain ⟨hchain, hsupOk⟩ := htp
      rcases res_ok_elim hstep with ⟨hres, rfl⟩ | ⟨hres, t, st2, hget, hd, rfl⟩
      · have hnp : name ∉ P := by
          intro hmem
          rcases hpre name hmem with ⟨hb, hr⟩
          rcases hres with h | h
          · exact hr h
          · rw [hb] at h; exact Bool.false_ne_true h
        refine ⟨hinv, fun n hn => hn, hpre, hnp, ?_⟩
        rcases hres with h | h
        · exact Or.inr h
        · exact Or.inl h
      · push_neg at hres
        obtain ⟨hres1, hres2⟩ := hres
        have hnb : isBaseType name = false := by
          cases h2 : isBaseType name with
          | true => exact absurd h2 hres2
          | false => rfl
        have htn : tyName t = name := hall _ (mapGet_mem hget)
        have hsup : tySuper t = super := hsupOk t hget
        have hpre2 : Pre (P ++ [name]) st := by
          intro X hX
          rcases List.mem_append.1 hX with h | h
          · exact hpre X h
          · rw [List.mem_singleton.1 h]
            exact ⟨hnb, hres1⟩
        have hdeps : depsName all name = consultedDeps t := depsName_eq hget
        have hchainD : ∀ d ∈ consultedDeps t, Chain all (P ++ [name]) d := by
          intro d hdm
          exact chain_snoc hchain (by rw [hdeps]; exact hdm)
        have hmm : RInv all st2 ∧ (∀ n ∈ st.resolved, n ∈ st2.resolved) ∧
            Pre (P ++ [name]) st2 ∧
            (∀ d ∈ consultedDeps t, isBaseType d = true ∨
              d ∈ st2.resolved) := by
          rcases hd with ⟨hsc, rfl⟩ | ⟨hsc, a, rfl, hs1⟩ |
            ⟨hsc, mm, st1, rfl, hs1, hs2⟩ | ⟨hsc, s, rfl, hs1⟩ |
            ⟨hsc1, hsc2, hsc3, hsc4, hs1⟩
          · refine ⟨hinv, fun n hn => hn, hpre2, ?_⟩
            rw [consultedDeps_eq_nil t (by rw [hsup]; exact hsc)]
            intro d hdm
            cases hdm
          · have ha : a.type = "Array" := by rw [← hsc]; exact hsup
            have hcd := consultedDeps_eq_items a ha
            obtain ⟨hinv2, hmono, hpre3, hpost⟩ :=
              ih (.ref a.items) st st2 (P ++ [name]) hs1 hinv hpre2
                (hchainD a.items (by rw [hcd]; exact List.mem_singleton_self _))
            refine ⟨hinv2, hmono, hpre3, ?_⟩
            rw [hcd]
            intro d hdm
            rw [List.mem_singleton.1 hdm]
            rcases hpost with h | ⟨_, h⟩
            · exact Or.inl h
            · exact Or.inr h
          · have hm2 : mm.type = "Map" := by rw [← hsc]; exact hsup
            have hcd := consultedDeps_eq_mapkeys mm hm2
            obtain ⟨hinv1, hmono1, hpre31, hpost1⟩ :=
              ih (.ref mm.items) st st1 (P ++ [name]) hs1 hinv hpre2
                (hchainD mm.items (by rw [hcd]; simp))
            obtain ⟨hinv2, hmono2, hpre32, hpost2⟩ :=
              ih (.ref mm.keys) st1 st2 (P ++ [name]) hs2 hinv1 hpre31
                (hchainD mm.keys (by rw [hcd]; simp))
            refine ⟨hinv2, fun n hn => hmono2 n (hmono1 n hn), hpre32, ?_⟩
            rw [hcd]
            intro d hdm
            rcases List.mem_cons.1 hdm with rfl | hdm2
            · rcases hpost1 with h | ⟨_, h⟩
              · exact Or.inl h
              · exact Or.inr (hmono2 _ h)
            · rw [List.mem_singleton.1 hdm2]
              rcases hpost2 with h | ⟨_, h⟩
              · exact Or.inl h
              · exact Or.inr h
          · have hs3 : s.type = "Struct" := by rw [← hsc]; exact hsup
            have hcd := consultedDeps_eq_fields s hs3
            obtain ⟨hinv2, hmono, hpre3, hpost⟩ :=
              ih (.fields s.fields) st st2 (P ++ [name]) hs1 hinv hpre2
                (fun f hf => hchainD f.type
                  (by rw [hcd]; exact List.mem_map_of_mem _ hf))
            refine ⟨hinv2, hmono, hpre3, ?_⟩
            rw [hcd]
            intro d hdm
            rcases List.mem_map.1 hdm with ⟨f, hf, rfl⟩
            exact hpost f hf
          · have hcd := consultedDeps_eq_super t
              (by rw [hsup]; exact hsc1) (by rw [hsup]; exact hsc2)
              (by rw [hsup]; exact hsc3) (by rw [hsup]; exact hsc4)
            obtain ⟨hinv2, hmono, hpre3, hpost⟩ :=
              ih (.ref super) st st2 (P ++ [name]) hs1 hinv hpre2
                (hchainD super (by rw [hcd, hsup]; exact List.mem_singleton_self _))
            refine ⟨hinv2, hmono, hpre3, ?_⟩
            rw [hcd, hsup]
            intro d hdm
            rw [List.mem_singleton.1 hdm]
            rcases hpost with h | ⟨_, h⟩
            · exact Or.inl h
            · exact Or.inr h
        obtain ⟨hinv2, hmono2, hpre32, hdepsRes⟩ := hmm
        have hnameP : name ∉ P := by
          intro hmem
          rcases chain_mem hchain hmem with ⟨d, hd1, hd2⟩
          rw [hdeps] at hd1
          rcases hdepsRes d hd1 with hb | hr
          · rcases hd2 with h | rfl
            · rcases hpre d h with ⟨hb2, _⟩
              rw [hb2] at hb
              exact Bool.false_ne_true hb
            · rw [hnb] at hb
              exact Bool.false_ne_true hb
          · have hdP : d ∈ P ++ [name] := by
              rcases hd2 with h | rfl
              · exact List.mem_append.2 (Or.inl h)
              · exact List.mem_append.2 (Or.inr (List.mem_singleton_self _))
            exact (hpre32 d hdP).2 hr
        have hnameSt2 : name ∉ st2.resolved :=
          (hpre32 name
            (List.mem_append.2 (Or.inr (List.mem_singleton_self _)))).2
        have hnameNames : name ∉ st2.ordered.map tyName := by
          intro hmem
          exact hnameSt2 ((hinv2.resolvedIff name).2 (Or.inr hmem))
        refine ⟨?_, ?_, ?_, hnameP, Or.inr (List.mem_cons_self _ _)⟩
        · constructor
          · intro n
            constructor
            · intro hn
              rcases List.mem_cons.1 hn with rfl | hn2
              · right
                simp [htn]
              · rcases (hinv2.resolvedIff n).1 hn2 with hb | hm
                · exact Or.inl hb
                · right
                  rw [List.map_append]
                  exact List.mem_append.2 (Or.inl hm)
            · intro hn
              rcases hn with hb | hm
              · exact List.mem_cons_of_mem _
                  ((hinv2.resolvedIff n).2 (Or.inl hb))
              · simp only [List.map_append, List.map_cons, List.map_nil,
                  htn] at hm
                rcases List.mem_append.1 hm with hm1 | hm2
                · exact List.mem_cons_of_mem _
                    ((hinv2.resolvedIff n).2 (Or.inr hm1))
                · rw [List.mem_singleton.1 hm2]
                  exact List.mem_cons_self _ _
          · intro u hu
            rcases List.mem_append.1 hu with h | h
            · exact hinv2.lookupOk u h
            · rw [List.mem_singleton.1 h, htn]
              exact hget
          · rw [List.map_append]
            refine List.Nodup.append hinv2.namesNodup
              (List.nodup_singleton _) ?_
            intro x hx1 hx2
            simp only [List.map_cons, List.map_nil, htn] at hx2
            rw [List.mem_singleton.1 hx2] at hx1
            exact hnameNames hx1
          · intro l1 u l2 hsplit d hdm
            rcases append_singleton_split hsplit with ⟨rfl, rfl, rfl⟩ |
              ⟨l2x, hA, hl2⟩
            · rcases hdepsRes d hdm with hb | hr
              · exact Or.inl hb
              · rcases (hinv2.resolvedIff d).1 hr with hb | hm
                · exact Or.inl hb
                · exact Or.inr hm
            · exact hinv2.topo l1 u l2x hA d hdm
        · intro n hn
          exact List.mem_cons_of_mem _ (hmono2 n hn)
        · intro X hX
          rcases hpre X hX with ⟨hb, _⟩
          refine ⟨hb, ?_⟩
          intro hmem
          rcases List.mem_cons.1 hmem with rfl | h2
          · exact hnameP hX
          · exact (hpre32 X (List.mem_append.2 (Or.inl hX))).2 h2
    | ref r =>
      rcases ref_ok_elim hstep with ⟨hb, rfl⟩ | ⟨hb, t, hget, hs⟩
      · exact ⟨hinv, fun n hn => hn, hpre, Or.inl hb⟩
      · obtain ⟨hinv2, hmono, hpre2, hpost⟩ :=
          ih (.res r (tySuper t)) st st' P hs hinv hpre
            ⟨htp, fun u hu => by
              rw [hget] at hu
              injection hu with h2
              rw [← h2]⟩
        refine ⟨hinv2, hmono, hpre2, ?_⟩
        rcases hpost.2 with h | h
        · exact Or.inl h
        · exact Or.inr ⟨hpost.1, h⟩
    | fields fs =>
      cases fs with
      | nil =>
        rw [fields_nil_ok_elim hstep]
        exact ⟨hinv, fun n hn => hn, hpre, fun f hf => absurd hf (by simp)⟩
      | cons f fs =>
        rcases fields_cons_ok_elim hstep with ⟨st1, hs1, hs2⟩
        obtain ⟨hinv1, hmono1, hpre1, hpost1⟩ :=
          ih (.ref f.type) st st1 P hs1 hinv hpre
            (htp f (List.mem_cons_self _ _))
        obtain ⟨hinv2, hmono2, hpre2, hpost2⟩ :=
          ih (.fields fs) st1 st' P hs2 hinv1 hpre1
            (fun g hg => htp g (List.mem_cons_of_mem _ hg))
        refine ⟨hinv2, fun n hn => hmono2 n (hmono1 n hn), hpre2, ?_⟩
        intro g hg
        rcases List.mem_cons.1 hg with rfl | hg2
        · rcases hpost1 with h | ⟨_, h⟩
          · exact Or.inl h
          · exact Or.inr (hmono2 _ h)
        · exact hpost2 g hg2

theorem RInv_init (all : List (String × Ty)) :
    RInv all ⟨[], namesBaseType⟩ := by
  constructor
  · intro n
    simp [mem_namesBaseType_iff]
  · intro t ht
    exact absurd ht (List.not_mem_nil t)
  · simp
  · intro l1 t l2 h d hd
    exact absurd h (by simp)

theorem buildLoop_sound {all : List (String × Ty)}
    (hall : ∀ p ∈ all, tyName p.2 = p.1) :
    ∀ ts fuel st st', buildLoop fuel all st ts = .ok st' → RInv all st →
      (∀ t ∈ ts, ∀ u, mapGet all (tyName t) = some u →
        tySuper u = tySuper t) →
      RInv all st' ∧ (∀ n ∈ st.resolved, n ∈ st'.resolved) ∧
        ∀ t ∈ ts, isBaseType (tyName t) = true ∨ tyName t ∈ st'.resolved := by
  intro ts
  induction ts with
  | nil =>
    intro fuel st st' hstep hinv _
    have h2 : Except.ok (ε := RErr) st = .ok st' := hstep
    injection h2 with h3
    rw [← h3]
    exact ⟨hinv, fun n hn => hn, fun t ht => absurd ht (by simp)⟩
  | cons t ts ih =>
    intro fuel st st' hstep hinv hsups
    simp only [buildLoop] at hstep
    cases hs1 : step fuel st all (.res (tyName t) (tySuper t)) with
    | error e => rw [hs1] at hstep; exact absurd hstep (by simp [Except.bind])
    | ok st1 =>
      rw [hs1] at hstep
      simp only [Except.bind] at hstep
      obtain ⟨hinv1, hmono1, _, hpost⟩ :=
        step_sound hall fuel (.res (tyName t) (tySuper t)) st st1 [] hs1 hinv
          (fun X hX => absurd hX (List.not_mem_nil X))
          ⟨trivial, hsups t (List.mem_cons_self _ _)⟩
      obtain ⟨hinv2, hmono2, hrest⟩ :=
        ih fuel st1 st' hstep hinv1
          (fun u hu => hsups u (List.mem_cons_of_mem _ hu))
      refine ⟨hinv2, fun n hn => hmono2 n (hmono1 n hn), ?_⟩
      intro u hu
      rcases List.mem_cons.1 hu with rfl | hu2
      · rcases hpost.2 with h | h
        · exact Or.inl h
        · exact Or.inr (hmono2 _ h)
      · exact hrest u hu2

/-- Soundness of `Build` under unique declared type names: the final Types
sequence satisfies the resolver invariant, and every declared name ends up
resolved (Base-Type-named declarations aside). -/
theorem Build_sound {fuel : Nat} {proto s : Schema}
    (hnd : (proto.types.map tyName).Nodup)
    (h : Build fuel proto = .ok s) :
    ∃ resolvedF, RInv (buildAllMap proto.types) ⟨s.types, resolvedF⟩ ∧
      ∀ t ∈ proto.types,
        isBaseType (tyName t) = true ∨ tyName t ∈ resolvedF := by
  unfold Build at h
  cases hb : buildLoop fuel (buildAllMap proto.types)
      ⟨[], namesBaseType⟩ proto.types with
  | error e => simp [hb, Except.map] at h
  | ok st =>
    simp only [hb, Except.map] at h
    have hsups : ∀ t ∈ proto.types, ∀ u,
        mapGet (buildAllMap proto.types) (tyName t) = some u →
          tySuper u = tySuper t := by
      intro t ht u hu
      have h2 : mapGet (buildAllMap proto.types) (tyName t) = some t := by
        apply mapGet_of_nodup
        · rw [buildAllMap_keys]
          exact hnd
        · exact mem_buildAllMap_of_mem ht
      rw [h2] at hu
      injection hu with h3
      rw [← h3]
    obtain ⟨hinv, _, hres⟩ :=
      buildLoop_sound (buildAllMap_hall proto.types) proto.types fuel _ _ hb
        (RInv_init _) hsups
    injection h with h2
    refine ⟨st.resolved, ?_, hres⟩
    rw [← h2]
    exact hinv

/-! ### Exact behaviour on already validly ordered inputs -/

theorem step_res_short {all : List (String × Ty)} {fuel : Nat}
    {name super : String} {st : RState}
    (h : name ∈ st.resolved ∨ isBaseType name = true) (hf : 1 ≤ fuel) :
    step fuel st all (.res name super) = .ok st := by
  cases fuel with
  | zero => omega
  | succ g =>
    simp only [step]
    rw [if_pos h]

theorem step_ref_short {all : List (String × Ty)} {fuel : Nat} {r : String}
    {st : RState}
    (h : isBaseType r = true ∨
      ((∃ u, mapGet all r = some u) ∧ r ∈ st.resolved))
    (hf : 2 ≤ fuel) :
    step fuel st all (.ref r) = .ok st := by
  cases fuel with
  | zero => omega
  | succ g =>
    by_cases hb : isBaseType r = true
    · simp only [step]
      rw [if_pos hb]
    · rcases h with h | ⟨⟨u, hu⟩, hr⟩
      · exact absurd h hb
      · simp only [step, hu]
        rw [if_neg hb]
        exact step_res_short (Or.inl hr) (by omega)

theorem step_fields_short {all : List (String × Ty)} :
    ∀ (fs : List StructFieldDef) (fuel : Nat) (st : RState),
      (∀ f ∈ fs, isBaseType f.type = true ∨
        ((∃ u, mapGet all f.type = some u) ∧ f.type ∈ st.resolved)) →
      fs.length + 3 ≤ fuel →
      step fuel st all (.fields fs) = .ok st := by
  intro fs
  induction fs with
  | nil =>
    intro fuel st _ hf
    cases fuel with
    | zero => omega
    | succ g => simp only [step]
  | cons f fs ih =>
    intro fuel st h hf
    cases fuel with
    | zero => omega
    | succ g =>
      simp only [step]
      rw [step_ref_short (h f (List.mem_cons_self _ _)) (by simp at hf; omega)]
      simp only [Except.bind]
      exact ih g st (fun f2 hf2 => h f2 (List.mem_cons_of_mem _ hf2))
        (by simp at hf; omega)

/-- Whether a descriptor's supertype tag can be dispatched without a nil
payload dereference: a tag "Array"/"Map"/"Struct" requires the descriptor to
be of that variant. -/
def kindMatches (t : Ty) : Bool :=
  if tySuper t = "Array" then
    (match t with | .array _ => true | _ => false)
  else if tySuper t = "Map" then
    (match t with | .map _ => true | _ => false)
  else if tySuper t = "Struct" then
    (match t with | .struct _ => true | _ => false)
  else true

theorem kindMatches_array {t : Ty} (hk : kindMatches t = true)
    (h : tySuper t = "Array") : ∃ a, t = .array a := by
  cases t with
  | aliasT x =>
    exact absurd hk (by
      have h2 : x.type = "Array" := h
      simp [kindMatches, tySuper, TypeInfo, h2])
  | str x =>
    exact absurd hk (by
      have h2 : x.type = "Array" := h
      simp [kindMatches, tySuper, TypeInfo, h2])
  | number x =>
    exact absurd hk (by
      have h2 : x.type = "Array" := h
      simp [kindMatches, tySuper, TypeInfo, h2])
  | struct x =>
    exact absurd hk (by
      have h2 : x.type = "Array" := h
      simp [kindMatches, tySuper, TypeInfo, h2])
  | array a => exact ⟨a, rfl⟩
  | map x =>
    exact absurd hk (by
      have h2 : x.type = "Array" := h
      simp [kindMatches, tySuper, TypeInfo, h2])
  | enum x =>
    exact absurd hk (by
      have h2 : x.type = "Array" := h
      simp [kindMatches, tySuper, TypeInfo, h2])
  | union x =>
    exact absurd hk (by
      have h2 : x.type = "Array" := h
      simp [kindMatches, tySuper, TypeInfo, h2])

theorem kindMatches_map {t : Ty} (hk : kindMatches t = true)
    (h : tySuper t = "Map") : ∃ m, t = .map m := by
  cases t with
  | aliasT x =>
    exact absurd hk (by
      have h2 : x.type = "Map" := h
      simp [kindMatches, tySuper, TypeInfo, h2])
  | str x =>
    exact absurd hk (by
      have h2 : x.type = "Map" := h
      simp [kindMatches, tySuper, TypeInfo, h2])
  | number x =>
    exact absurd hk (by
      have h2 : x.type = "Map" := h
      simp [kindMatches, tySuper, TypeInfo, h2])
  | struct x =>
    exact absurd hk (by
      have h2 : x.type = "Map" := h
      simp [kindMatches, tySuper, TypeInfo, h2])
  | array x =>
    exact absurd hk (by
      have h2 : x.type = "Map" := h
      simp [kindMatches, tySuper, TypeInfo, h2])
  | map m => exact ⟨m, rfl⟩
  | enum x =>
    exact absurd hk (by
      have h2 : x.type = "Map" := h
      simp [kindMatches, tySuper, TypeInfo, h2])
  | union x =>
    exact absurd hk (by
      have h2 : x.type = "Map" := h
      simp [kindMatches, tySuper, TypeInfo, h2])

theorem kindMatches_struct {t : Ty} (hk : kindMatches t = true)
    (h : tySuper t = "Struct") : ∃ s, t = .struct s := by
  cases t with
  | aliasT x =>
    exact absurd hk (by
      have h2 : x.type = "Struct" := h
      simp [kindMatches, tySuper, TypeInfo, h2])
  | str x =>
    exact absurd hk (by
      have h2 : x.type = "Struct" := h
      simp [kindMatches, tySuper, TypeInfo, h2])
  | number x =>
    exact absurd hk (by
      have h2 : x.type = "Struct" := h
      simp [kindMatches, tySuper, TypeInfo, h2])
  | struct s => exact ⟨s, rfl⟩
  | array x =>
    exact absurd hk (by
      have h2 : x.type = "Struct" := h
      simp [kindMatches, tySuper, TypeInfo, h2])
  | map x =>
    exact absurd hk (by
      have h2 : x.type = "Struct" := h
      simp [kindMatches, tySuper, TypeInfo, h2])
  | enum x =>
    exact absurd hk (by
      have h2 : x.type = "Struct" := h
      simp [kindMatches, tySuper, TypeInfo, h2])
  | union x =>
    exact absurd hk (by
      have h2 : x.type = "Struct" := h
      simp [kindMatches, tySuper, TypeInfo, h2])

/-- Number of struct fields of a descriptor (0 for other variants); bounds
the fuel the interpreter needs for one already-satisfied `resolve` call. -/
def fieldCount (t : Ty) : Nat :=
  match t with
  | .struct s => s.fields.length
  | _ => 0

/-- One `resolve` call on an unresolved name whose consulted dependencies
are all already settled: it appends exactly that descriptor and marks
exactly that name. -/
theorem step_res_settled {all : List (String × Ty)} {fuel : Nat}
    {name super : String} {st : RState} {t : Ty}
    (hget : mapGet all name = some t) (hsup : tySuper t = super)
    (hnr : name ∉ st.resolved) (hnb : isBaseType name = false)
    (hk : kindMatches t = true)
    (hdeps : ∀ d ∈ consultedDeps t, isBaseType d = true ∨
      ((∃ u, mapGet all d = some u) ∧ d ∈ st.resolved))
    (hf : fieldCount t + 4 ≤ fuel) :
    step fuel st all (.res name super) =
      .ok ⟨st.ordered ++ [t], name :: st.resolved⟩ := by
  cases fuel with
  | zero => omega
  | succ g =>
    have hno : ¬(name ∈ st.resolved ∨ isBaseType name = true) := by
      intro hc
      rcases hc with h | h
      · exact hnr h
      · rw [hnb] at h
        exact Bool.false_ne_true h
    simp only [step, hget]
    rw [if_neg hno]
    by_cases hc1 : super = "String" ∨ super = "Bytes" ∨ super = "Bool" ∨
        super = "Int8" ∨ super = "Int16" ∨ super = "Int32" ∨
        super = "Int64" ∨ super = "Float32" ∨ super = "Float64" ∨
        super = "UUID" ∨ super = "Timestamp"
    · rw [if_pos hc1]
      simp [Except.bind]
    · rw [if_neg hc1]
      by_cases hc2 : super = "Array"
      · rcases kindMatches_array hk (by rw [hsup]; exact hc2) with ⟨a, rfl⟩
        have hcd := consultedDeps_eq_items a (by rw [← hc2]; exact hsup)
        rw [if_pos hc2]
        have hrr : step g st all (.ref a.items) = .ok st :=
          step_ref_short (hdeps a.items (by rw [hcd]; simp)) (by omega)
        simp [hrr, Except.bind]
      · rw [if_neg hc2]
        by_cases hc3 : super = "Map"
        · rcases kindMatches_map hk (by rw [hsup]; exact hc3) with ⟨mm, rfl⟩
          have hcd := consultedDeps_eq_mapkeys mm (by rw [← hc3]; exact hsup)
          rw [if_pos hc3]
          have hr1 : step g st all (.ref mm.items) = .ok st :=
            step_ref_short (hdeps mm.items (by rw [hcd]; simp)) (by omega)
          have hr2 : step g st all (.ref mm.keys) = .ok st :=
            step_ref_short (hdeps mm.keys (by rw [hcd]; simp)) (by omega)
          simp [hr1, hr2, Except.bind]
        · rw [if_neg hc3]
          by_cases hc4 : super = "Struct"
          · rcases kindMatches_struct hk (by rw [hsup]; exact hc4) with ⟨s, rfl⟩
            have hcd := consultedDeps_eq_fields s (by rw [← hc4]; exact hsup)
            rw [if_pos hc4]
            have hrr : step g st all (.fields s.fields) = .ok st := by
              apply step_fields_short
              · intro f hf2
                exact hdeps f.type
                  (by rw [hcd]; exact List.mem_map_of_mem _ hf2)
              · have : fieldCount (.struct s) = s.fields.length := rfl
                omega
            simp [hrr, Except.bind]
          · rw [if_neg hc4]
            have hcd := consultedDeps_eq_super t
              (by rw [hsup]; exact hc1) (by rw [hsup]; exact hc2)
              (by rw [hsup]; exact hc3) (by rw [hsup]; exact hc4)
            have hrr : step g st all (.ref super) = .ok st :=
              step_ref_short
                (hdeps super (by rw [hcd, hsup]; simp)) (by omega)
            simp [hrr, Except.bind]

/-- Fuel sufficient to run `Build` over an already validly ordered list:
every `resolve` call only short-circuits its dependencies. -/
def c6Fuel (ts : List Ty) : Nat :=
  ts.foldr (fun t acc => Nat.max (fieldCount t + 4) acc) 4

/-- Checker for the hypothesis of the order-preservation theorem: walking
the declared types in order, each must carry a non-Base-Type name, a
supertype tag matching its variant, and consulted dependencies that are Base
Types or names declared strictly earlier. -/
def orderedOk : List String → List Ty → Bool
  | _, [] => true
  | earlier, t :: ts =>
    (!isBaseType (tyName t) && kindMatches t &&
      (consultedDeps t).all fun d => isBaseType d || decide (d ∈ earlier)) &&
    orderedOk (earlier ++ [tyName t]) ts

theorem buildLoop_preserve {full : List Ty}
    (hnd : (full.map tyName).Nodup) :
    ∀ ts done fuel rs,
      full = done ++ ts →
      orderedOk (done.map tyName) ts = true →
      (∀ n, n ∈ rs ↔ (isBaseType n = true ∨ n ∈ done.map tyName)) →
      c6Fuel ts ≤ fuel →
      ∃ rs2, buildLoop fuel (buildAllMap full) ⟨done, rs⟩ ts =
        .ok ⟨full, rs2⟩ := by
  intro ts
  induction ts with
  | nil =>
    intro done fuel rs hsplit _ _ _
    refine ⟨rs, ?_⟩
    simp [buildLoop, hsplit]
  | cons t ts ih =>
    intro done fuel rs hsplit hord hrs hf
    have hfc : Nat.max (fieldCount t + 4) (c6Fuel ts) ≤ fuel := hf
    have hf1 : fieldCount t + 4 ≤ fuel :=
      le_trans (Nat.le_max_left _ _) hfc
    have hf2 : c6Fuel ts ≤ fuel := le_trans (Nat.le_max_right _ _) hfc
    simp only [orderedOk, Bool.and_eq_true, List.all_eq_true] at hord
    obtain ⟨⟨⟨hnb0, hkind⟩, hdeps0⟩, hord2⟩ := hord
    have hnb : isBaseType (tyName t) = false := by
      cases h2 : isBaseType (tyName t) with
      | false => rfl
      | true => rw [h2] at hnb0; exact absurd hnb0 (by decide)
    have hmemt : t ∈ full := by rw [hsplit]; simp
    have hget : mapGet (buildAllMap full) (tyName t) = some t := by
      apply mapGet_of_nodup
      · rw [buildAllMap_keys]
        exact hnd
      · exact mem_buildAllMap_of_mem hmemt
    have hnr : tyName t ∉ rs := by
      intro hmem
      rcases (hrs _).1 hmem with hb | hm
      · rw [hnb] at hb
        exact Bool.false_ne_true hb
      · have heq : full.map tyName = done.map tyName ++ (t :: ts).map tyName := by
          rw [hsplit, List.map_append]
        rw [heq] at hnd
        rcases List.nodup_append.1 hnd with ⟨_, _, hdisj⟩
        exact hdisj hm (by simp)
    have hdeps : ∀ d ∈ consultedDeps t, isBaseType d = true ∨
        ((∃ u, mapGet (buildAllMap full) d = some u) ∧ d ∈ rs) := by
      intro d hd
      have h3 := hdeps0 d hd
      rw [Bool.or_eq_true] at h3
      rcases h3 with hb | hdec
      · exact Or.inl hb
      · have hdm : d ∈ done.map tyName := of_decide_eq_true hdec
        have hkeys : d ∈ (buildAllMap full).map Prod.fst := by
          rw [buildAllMap_keys, hsplit, List.map_append]
          exact List.mem_append.2 (Or.inl hdm)
        rcases mapGet_isSome_of_mem_keys hkeys with ⟨u, hu⟩
        exact Or.inr ⟨⟨u, hu⟩, (hrs d).2 (Or.inr hdm)⟩
    have hstep : step fuel ⟨done, rs⟩ (buildAllMap full)
        (.res (tyName t) (tySuper t)) = .ok ⟨done ++ [t], tyName t :: rs⟩ :=
      step_res_settled hget rfl hnr hnb hkind hdeps hf1
    obtain ⟨rs2, hrest⟩ := ih (done ++ [t]) fuel (tyName t :: rs)
      (by rw [hsplit]; simp)
      (by rw [List.map_append]; exact hord2)
      (by
        intro n
        constructor
        · intro hn
          rcases List.mem_cons.1 hn with rfl | hn2
          · right
            simp
          · rcases (hrs n).1 hn2 with hb | hm
            · exact Or.inl hb
            · right
              rw [List.map_append]
              exact List.mem_append.2 (Or.inl hm)
        · intro hn
          rcases hn with hb | hm
          · exact List.mem_cons_of_mem _ ((hrs n).2 (Or.inl hb))
          · rw [List.map_append] at hm
            rcases List.mem_append.1 hm with hm1 | hm2
            · exact List.mem_cons_of_mem _ ((hrs n).2 (Or.inr hm1))
            · simp only [List.map_cons, List.map_nil,
                List.mem_singleton] at hm2
              rw [hm2]
              exact List.mem_cons_self _ _)
      hf2
    refine ⟨rs2, ?_⟩
    simp only [buildLoop, hstep, Except.bind]
    exact hrest

/-! ### Concrete schemas used by the claims -/

/-- Plain struct field with no inline references. -/
def mkField (n ty : String) : StructFieldDef :=
  { name := n, type := ty, optional := false, comment := "",
    keys := "", items := "" }

/-- Schema prototype holding the given types (what a `SchemaBuilder` holds
after `NewSchemaBuilder` and a sequence of `AddType` calls). -/
def mkSchema (ts : List Ty) : Schema :=
  { name := "S", ns := "", version := none, base := "", comment := "",
    types := ts, resources := [] }

/-- Struct Point with two Int32 fields (spec section 8, Example 1). -/
def pointTy : Ty :=
  .struct { type := "Struct", name := "Point", comment := "",
            fields := [mkField "x" "Int32", mkField "y" "Int32"] }

/-- Struct Line whose fields reference Point (spec section 8, Example 1). -/
def lineTy : Ty :=
  .struct { type := "Struct", name := "Line", comment := "",
            fields := [mkField "f" "Point", mkField "t" "Point"] }

/-- Line declared before Point: finalize must reorder. -/
def pW : Schema := mkSchema [lineTy, pointTy]

/-- Point declared before Line: already validly ordered. -/
def pOrd : Schema := mkSchema [pointTy, lineTy]

/-- Alias A of B. -/
def aTy : Ty := .aliasT { type := "B", name := "A", comment := "" }

/-- Alias B of A, closing a reference cycle with A. -/
def bTy : Ty := .aliasT { type := "A", name := "B", comment := "" }

/-- A two-element reference cycle (A depends on B, B depends on A). -/
def pCyc : Schema := mkSchema [aTy, bTy]

/-- Struct Self with a field referencing the undeclared type Missing
(spec section 8, Example 4). -/
def selfTy : Ty :=
  .struct { type := "Struct", name := "Self", comment := "",
            fields := [mkField "f" "Missing"] }

/-- Schema containing only Self, whose field reference dangles. -/
def pDang : Schema := mkSchema [selfTy]

/-- A declared type whose own name is the Base Type name "String". -/
def strNamed : Ty := .aliasT { type := "Bytes", name := "String", comment := "" }

/-- Schema declaring only the "String"-named alias. -/
def pBaseName : Schema := mkSchema [strNamed]

/-- Alias V of String: the variant target. -/
def vTy : Ty := .aliasT { type := "String", name := "V", comment := "" }

/-- Union U with single variant V, built through the union builder. -/
def uDef : UnionTypeDef := unionBuilderVariant (NewUnionTypeBuilder "Union" "U") "V"

/-- The built union descriptor. -/
def uTy : Ty := unionBuilderBuild uDef

/-- U declared before its variant target V. -/
def pU : Schema := mkSchema [uTy, vTy]

/-- Alias Dummy of String. -/
def dummyTy : Ty := .aliasT { type := "String", name := "Dummy", comment := "" }

/-- Array type L whose declared supertype is the named type Dummy (not
"Array") while its item reference is X, built through the array builder. -/
def lTy : Ty :=
  arrayBuilderBuild (arrayBuilderItems (NewArrayTypeBuilder "Dummy" "L") "X")

/-- Alias X of String: the item target of L. -/
def xTy : Ty := .aliasT { type := "String", name := "X", comment := "" }

/-- L declared first; its item reference X declared last. -/
def pC1 : Schema := mkSchema [lTy, dummyTy, xTy]

/-! ### The reference cycle exhausts every fuel bound -/

/-- State at the start of `Build`. -/
def st0 : RState := ⟨[], namesBaseType⟩

/-- Unrolling the resolver four calls deep around the A-B cycle returns to
the same `resolve` call with the same state: only fuel shrinks. -/
theorem cyc_unroll (m : Nat) :
    step (m + 4) st0 (buildAllMap pCyc.types) (.res "A" "B") =
      ((step m st0 (buildAllMap pCyc.types) (.res "A" "B")).bind fun st2 =>
          (Except.ok ⟨st2.ordered ++ [bTy], "B" :: st2.resolved⟩ :
            Except RErr RState)).bind fun st2 =>
        (Except.ok ⟨st2.ordered ++ [aTy], "A" :: st2.resolved⟩ :
          Except RErr RState) := rfl

theorem cyc_res : ∀ f, step f st0 (buildAllMap pCyc.types) (.res "A" "B") =
    .error .outOfFuel := by
  intro f
  induction f using Nat.strong_induction_on with
  | _ f ih =>
    match f with
    | 0 => rfl
    | 1 => decide
    | 2 => decide
    | 3 => decide
    | (m + 4) =>
      rw [cyc_unroll m, ih m (by omega)]
      rfl

/-- Claim C5: the resolver has no cycle guard: on the two-element cycle it
recurses without bound (every fuel bound is exhausted; no Cycle error and no
Schema is ever produced). -/
theorem c5_cycle_never_terminates :
    ∀ fuel, Build fuel pCyc = .error .outOfFuel := by
  intro fuel
  have h2 : buildLoop fuel (buildAllMap pCyc.types) st0 pCyc.types =
      .error .outOfFuel := by
    show (step fuel st0 (buildAllMap pCyc.types)
        (.res (tyName aTy) (tySuper aTy))).bind _ = .error .outOfFuel
    rw [show RTask.res (tyName aTy) (tySuper aTy) = .res "A" "B" from rfl,
      cyc_res fuel]
    rfl
  show Except.map _ (buildLoop fuel (buildAllMap pCyc.types) st0 pCyc.types) =
    .error .outOfFuel
  rw [h2]
  rfl

/-- Claim C4: on the dangling reference of Example 4 (struct Self with field
type Missing), `Build` hits the nil-descriptor dereference: it reports no
Dangling Reference error (its Go signature has no error result at all) and
produces no Schema. -/
theorem c4_dangling_panics : Build 9 pDang = .error .nilPanic := by decide

/-! ### Topological-order and permutation claims -/

/-- Claim C1 counterexample: the schema pC1 (array L with declared supertype
Dummy and item reference X, X declared after L) finalizes successfully, yet
the declared non-Base type X, referenced by L via its array item type,
appears after L in the output sequence — the resolver consults the item
reference only when the supertype tag is literally "Array". -/
theorem c1_counterexample :
    Build 9 pC1 = .ok { pC1 with types := [dummyTy, lTy, xTy] } ∧
    "X" ∈ claimRefs lTy ∧ isBaseType "X" = false ∧ xTy ∈ pC1.types ∧
    tyName xTy = "X" ∧
    [dummyTy, lTy, xTy].indexOf lTy < [dummyTy, lTy, xTy].indexOf xTy := by
  refine ⟨by decide, by decide, by decide, by decide, by decide, by decide⟩

/-- Claim C1 (amended): for every Schema produced by finalize with unique
declared type names, every dependency the resolver consults for an emitted
Type T — its array item reference when T's supertype tag is "Array", map
item/key when "Map", struct field types when "Struct", the supertype name
otherwise — is a Base Type or appears strictly before T in the output. -/
theorem c1_consulted_deps_precede {fuel : Nat} {proto s : Schema}
    (hnd : (proto.types.map tyName).Nodup)
    (h : Build fuel proto = .ok s) :
    ∀ l1 t l2, s.types = l1 ++ t :: l2 → ∀ d ∈ consultedDeps t,
      isBaseType d = true ∨ d ∈ l1.map tyName := by
  obtain ⟨rs, hinv, _⟩ := Build_sound hnd h
  exact hinv.topo

/-- Output schema of finalizing pW. -/
def pWout : Schema := { pW with types := [pointTy, lineTy] }

/-- Witness for C1: in the finalized pW, Line is emitted after Point and its
consulted field dependency "Point" is among the names before it. -/
theorem c1_witness :
    isBaseType "Point" = true ∨ "Point" ∈ [pointTy].map tyName :=
  @c1_consulted_deps_precede 9 pW pWout (by decide) (by decide)
    [pointTy] lineTy [] (by decide) "Point" (by decide)

/-- Claim C2 counterexample: the schema pBaseName has unique declared type
names, yet its single declared type (an alias named "String") is silently
dropped by finalize, so the output is not a permutation of the declared
Types. -/
theorem c2_counterexample :
    (pBaseName.types.map tyName).Nodup ∧
    Build 3 pBaseName = .ok { pBaseName with types := [] } ∧
    ¬ List.Perm ([] : List Ty) pBaseName.types := by
  refine ⟨by decide, by decide, ?_⟩
  intro hperm
  have := hperm.length_eq
  simp [pBaseName, mkSchema] at this

/-- Claim C2 (amended): for every Schema produced by finalize whose declared
type names are unique and none of which is a Base Type name, the output
Types sequence is a permutation of the declared Types. -/
theorem c2_output_is_permutation {fuel : Nat} {proto s : Schema}
    (hnd : (proto.types.map tyName).Nodup)
    (hnb : ∀ t ∈ proto.types, isBaseType (tyName t) = false)
    (h : Build fuel proto = .ok s) :
    s.types.Perm proto.types := by
  obtain ⟨rs, hinv, hres⟩ := Build_sound hnd h
  have hnd2 : s.types.Nodup := List.Nodup.of_map _ hinv.namesNodup
  have hndp : proto.types.Nodup := List.Nodup.of_map _ hnd
  rw [List.perm_ext_iff_of_nodup hnd2 hndp]
  intro t
  constructor
  · intro ht
    exact mem_of_mem_buildAllMap (mapGet_mem (hinv.lookupOk t ht))
  · intro ht
    rcases hres t ht with hb | hr
    · rw [hnb t ht] at hb
      exact absurd hb (by decide)
    · rcases (hinv.resolvedIff _).1 hr with hb | hm
      · rw [hnb t ht] at hb
        exact absurd hb (by decide)
      · rcases List.mem_map.1 hm with ⟨u, hu, hequ⟩
        have h1 := hinv.lookupOk u hu
        have h2 : mapGet (buildAllMap proto.types) (tyName t) = some t := by
          apply mapGet_of_nodup
          · rw [buildAllMap_keys]
            exact hnd
          · exact mem_buildAllMap_of_mem ht
        rw [hequ] at h1
        rw [h1] at h2
        injection h2 with h3
        rw [← h3]
        exact hu

/-- Witness for C2: finalizing pW (Line appended before Point) yields a
permutation of the appended Types. -/
theorem c2_witness : List.Perm [pointTy, lineTy] [lineTy, pointTy] :=
  @c2_output_is_permutation 9 pW pWout (by decide) (by decide) (by decide)

/-- Claim C3 counterexample: the union U references its declared non-Base
variant V, yet finalize emits U before V — `resolve` never reads
`UnionTypeDef.Variants`, so union variant references impose no ordering. -/
theorem c3_counterexample :
    Build 9 pU = .ok { pU with types := [uTy, vTy] } ∧
    "V" ∈ uDef.variants ∧ vTy ∈ pU.types ∧ tyName vTy = "V" ∧
    isBaseType "V" = false ∧
    [uTy, vTy].indexOf uTy < [uTy, vTy].indexOf vTy := by
  refine ⟨by decide, by decide, by decide, by decide, by decide, by decide⟩

/-- Claim C3 (amended): with unique declared type names, the output is
topologically ordered with respect to the references the resolver consults
(supertype; array item under an "Array" tag; map key/item under "Map";
struct field types under "Struct") — union variant references and inline
map/array field references excluded: any emitted Type whose name is a
consulted dependency of an emitted Type A precedes A. -/
theorem c3_consulted_referent_precedes {fuel : Nat} {proto s : Schema}
    (hnd : (proto.types.map tyName).Nodup)
    (h : Build fuel proto = .ok s) :
    ∀ l1 a l2, s.types = l1 ++ a :: l2 → ∀ b ∈ s.types,
      tyName b ∈ consultedDeps a → b ∈ l1 := by
  obtain ⟨rs, hinv, _⟩ := Build_sound hnd h
  intro l1 a l2 hsplit b hb hdep
  have hnbase : isBaseType (tyName b) = false := Build_nonbase h b hb
  have htopo := hinv.topo l1 a l2 hsplit (tyName b) hdep
  rcases htopo with hbase | hmem
  · rw [hnbase] at hbase
    exact absurd hbase (by decide)
  · rcases List.mem_map.1 hmem with ⟨b2, hb2, heq⟩
    have hb2s : b2 ∈ s.types := by
      rw [hsplit]
      exact List.mem_append.2 (Or.inl hb2)
    have h3 := List.inj_on_of_nodup_map hinv.namesNodup hb2s hb heq
    rw [← h3]
    exact hb2

/-! ### Idempotence, Base-Type exclusion, and silent dropping -/

/-- The claim-side reading of a valid dependency order: walking the declared
types in order, every structural reference (per `claimRefs`) that names a
declared type must name one declared strictly earlier. -/
def claimValidOrder (decl : List String) : List String → List Ty → Bool
  | _, [] => true
  | earlier, t :: ts =>
    ((claimRefs t).all fun r => !decide (r ∈ decl) || decide (r ∈ earlier)) &&
    claimValidOrder decl (earlier ++ [tyName t]) ts

/-- Claim C6 counterexample: pBaseName is validly ordered in the claim's
sense (its only reference, "Bytes", names no declared type), yet finalize
does not return the Types in append order — the "String"-named declaration
is dropped. -/
theorem c6_counterexample :
    claimValidOrder (pBaseName.types.map tyName) [] pBaseName.types = true ∧
    Build 3 pBaseName = .ok { pBaseName with types := [] } ∧
    { pBaseName with types := ([] : List Ty) } ≠ pBaseName := by
  refine ⟨by decide, by decide, by decide⟩

/-- Claim C6 (amended): finalize preserves an already valid order: if the
declared type names are unique, and walking the Types in append order each
one has a non-Base-Type name, a supertype tag matching its variant, and only
consulted dependencies that are Base Types or earlier declared names, then
`Build` (given enough fuel for these depth-3 runs) returns the schema with
the Types in exactly the append order. -/
theorem c6_valid_order_preserved {fuel : Nat} {proto : Schema}
    (hnd : (proto.types.map tyName).Nodup)
    (hord : orderedOk [] proto.types = true)
    (hf : c6Fuel proto.types ≤ fuel) :
    Build fuel proto = .ok proto := by
  obtain ⟨rs2, hloop⟩ := buildLoop_preserve hnd proto.types [] fuel
    namesBaseType rfl hord (by intro n; simp [mem_namesBaseType_iff]) hf
  unfold Build
  simp only [hloop, Except.map]

/-- Witness for C6: pOrd (Point then Line) is validly ordered and finalize
returns it unchanged. -/
theorem c6_witness : Build 6 pOrd = .ok pOrd :=
  @c6_valid_order_preserved 6 pOrd (by decide) (by decide) (by decide)

/-- Claim C7: no Base Type name is ever emitted as a Type of a finalized
Schema (the resolver's entry guard treats every Base Type name as already
resolved, so it never appends such a descriptor). -/
theorem c7_no_base_type_emitted {fuel : Nat} {proto s : Schema}
    (h : Build fuel proto = .ok s) :
    ∀ t ∈ s.types, isBaseType (tyName t) = false := by
  intro t ht
  exact Build_nonbase h t ht

/-- Witness for C7: in the finalized pW neither emitted Type carries a Base
Type name. -/
theorem c7_witness : isBaseType (tyName pointTy) = false :=
  @c7_no_base_type_emitted 9 pW pWout (by decide) pointTy (by decide)

/-- Claim C10: a declared Type whose own name equals a Base Type name is
silently omitted from the output: the resolver's entry guard returns before
looking it up, so it is neither emitted nor reported. -/
theorem c10_base_named_type_dropped {fuel : Nat} {proto s : Schema}
    (h : Build fuel proto = .ok s) {t : Ty} (ht : t ∈ proto.types)
    (hb : isBaseType (tyName t) = true) : t ∉ s.types := by
  intro hmem
  have h2 := Build_nonbase h t hmem
  rw [h2] at hb
  exact absurd hb (by decide)

/-- Witness for C10: finalizing pBaseName succeeds (no error is reported)
and its "String"-named declaration is absent from the output. -/
theorem c10_witness :
    strNamed ∉ ({ pBaseName with types := ([] : List Ty) }).types :=
  @c10_base_named_type_dropped 3 pBaseName
    { pBaseName with types := ([] : List Ty) } (by decide) strNamed
    (by decide) (by decide)

/-! ### String builder collapse (C8) -/

/-- Final pattern value after a chain of setters, starting from a default. -/
def lastPatternD : List SOp → String → String
  | [], d => d
  | .pattern p :: ops, _ => lastPatternD ops p
  | _ :: ops, d => lastPatternD ops d

/-- Final max-size value after a chain of setters. -/
def lastMaxD : List SOp → Option Int → Option Int
  | [], d => d
  | .maxSize n :: ops, _ => lastMaxD ops (some n)
  | _ :: ops, d => lastMaxD ops d

/-- Final min-size value after a chain of setters. -/
def lastMinD : List SOp → Option Int → Option Int
  | [], d => d
  | .minSize n :: ops, _ => lastMinD ops (some n)
  | _ :: ops, d => lastMinD ops d

theorem pattern_applySOps : ∀ (ops : List SOp) (st : StringTypeDef),
    (applySOps ops st).pattern = lastPatternD ops st.pattern := by
  intro ops
  induction ops with
  | nil => intro st; rfl
  | cons op ops ih =>
    intro st
    cases op <;> simp [applySOps, List.foldl_cons, applySOp, lastPatternD] <;>
      exact ih _

theorem maxSize_applySOps : ∀ (ops : List SOp) (st : StringTypeDef),
    (applySOps ops st).maxSize = lastMaxD ops st.maxSize := by
  intro ops
  induction ops with
  | nil => intro st; rfl
  | cons op ops ih =>
    intro st
    cases op <;> simp [applySOps, List.foldl_cons, applySOp, lastMaxD] <;>
      exact ih _

theorem minSize_applySOps : ∀ (ops : List SOp) (st : StringTypeDef),
    (applySOps ops st).minSize = lastMinD ops st.minSize := by
  intro ops
  induction ops with
  | nil => intro st; rfl
  | cons op ops ih =>
    intro st
    cases op <;> simp [applySOps, List.foldl_cons, applySOp, lastMinD] <;>
      exact ih _

theorem values_applySOps : ∀ (ops : List SOp) (st : StringTypeDef),
    (applySOps ops st).values = st.values := by
  intro ops
  induction ops with
  | nil => intro st; rfl
  | cons op ops ih =>
    intro st
    cases op <;> simp [applySOps, List.foldl_cons, applySOp] <;> exact ih _

theorem type_applySOps : ∀ (ops : List SOp) (st : StringTypeDef),
    (applySOps ops st).type = st.type := by
  intro ops
  induction ops with
  | nil => intro st; rfl
  | cons op ops ih =>
    intro st
    cases op <;> simp [applySOps, List.foldl_cons, applySOp] <;> exact ih _

theorem name_applySOps : ∀ (ops : List SOp) (st : StringTypeDef),
    (applySOps ops st).name = st.name := by
  intro ops
  induction ops with
  | nil => intro st; rfl
  | cons op ops ih =>
    intro st
    cases op <;> simp [applySOps, List.foldl_cons, applySOp] <;> exact ih _

/-- The configured-call list of the C8 counterexample: a single (empty)
pattern configuration. -/
def c8ops : List SOp := [.pattern ""]

/-- Claim C8 counterexample: a pattern WAS configured on this builder (the
call `Pattern ""`), yet the terminal build returns an Alias descriptor, not
a String descriptor — `StringTypeBuilder.Build` tests the stored field
against the empty string, not whether a setter was called. -/
theorem c8_counterexample :
    SOp.pattern "" ∈ c8ops ∧
    stringBuild (applySOps c8ops (NewStringTypeBuilder "PlainName")) =
      .aliasT { type := "String", name := "PlainName", comment := "" } := by
  refine ⟨by decide, by decide⟩

/-- Claim C8 (amended): for every chain of String builder calls, the
terminal build returns an Alias descriptor if and only if the final stored
pattern is empty and no size bound was ever set (enumerated values cannot be
configured through this builder, whose state carries none); otherwise it
returns a String descriptor. -/
theorem c8_alias_collapse (ops : List SOp) (n : String) :
    (∃ a, stringBuild (applySOps ops (NewStringTypeBuilder n)) = .aliasT a) ↔
      (lastPatternD ops "" = "" ∧ lastMaxD ops none = none ∧
        lastMinD ops none = none) := by
  have hp : (applySOps ops (NewStringTypeBuilder n)).pattern =
      lastPatternD ops "" := pattern_applySOps ops _
  have hmx : (applySOps ops (NewStringTypeBuilder n)).maxSize =
      lastMaxD ops none := maxSize_applySOps ops _
  have hmn : (applySOps ops (NewStringTypeBuilder n)).minSize =
      lastMinD ops none := minSize_applySOps ops _
  have hv : (applySOps ops (NewStringTypeBuilder n)).values = none :=
    values_applySOps ops _
  constructor
  · intro ⟨a, ha⟩
    unfold stringBuild at ha
    by_cases hcond : (applySOps ops (NewStringTypeBuilder n)).pattern = "" ∧
        (applySOps ops (NewStringTypeBuilder n)).maxSize = none ∧
        (applySOps ops (NewStringTypeBuilder n)).minSize = none ∧
        (applySOps ops (NewStringTypeBuilder n)).values = none
    · exact ⟨by rw [← hp]; exact hcond.1, by rw [← hmx]; exact hcond.2.1,
        by rw [← hmn]; exact hcond.2.2.1⟩
    · rw [if_neg hcond] at ha
      exact absurd ha (by simp)
  · intro ⟨h1, h2, h3⟩
    refine ⟨⟨"String", n, (applySOps ops (NewStringTypeBuilder n)).comment⟩, ?_⟩
    unfold stringBuild
    rw [if_pos ⟨by rw [hp]; exact h1, by rw [hmx]; exact h2,
      by rw [hmn]; exact h3, hv⟩]
    rw [type_applySOps, name_applySOps]
    rfl

/-! ### Resource exception registration (C9) -/

/-- The exception from the last `Exception` call under a given symbol, if
any (later calls win). -/
def lastExc : List ROp → String → Option ExceptionDef
  | [], _ => none
  | op :: ops, sym =>
    match lastExc ops sym with
    | some e => some e
    | none =>
      match op with
      | .exception s t c => if s = sym then some ⟨t, c⟩ else none
      | _ => none

theorem exLookup_exInsert : ∀ (m : List (String × ExceptionDef))
    (s : String) (e : ExceptionDef) (sym : String),
    exLookup (exInsert m s e) sym =
      if s = sym then some e else exLookup m sym := by
  intro m
  induction m with
  | nil =>
    intro s e sym
    simp [exInsert, exLookup]
  | cons p rest ih =>
    intro s e sym
    obtain ⟨k, v⟩ := p
    by_cases hk : k = s
    · subst hk
      simp only [exInsert, if_pos rfl]
      by_cases hs : k = sym
      · subst hs
        simp [exLookup]
      · simp [exLookup, hs]
    · simp only [exInsert, if_neg hk]
      by_cases hks : k = sym
      · subst hks
        have hs2 : ¬ s = k := fun h2 => hk h2.symm
        simp [exLookup, hs2]
      · simp [exLookup, hks, ih]

theorem exLookup_applyROps : ∀ (ops : List ROp) (rb : Resource)
    (sym : String),
    exLookup (applyROps ops rb).exceptions sym =
      match lastExc ops sym with
      | some e => some e
      | none => exLookup rb.exceptions sym := by
  intro ops
  induction ops with
  | nil => intro rb sym; rfl
  | cons op ops ih =>
    intro rb sym
    have hstep : applyROps (op :: ops) rb = applyROps ops (applyROp rb op) :=
      List.foldl_cons _ _
    rw [hstep, ih (applyROp rb op) sym]
    cases hl : lastExc ops sym with
    | some e => simp [lastExc, hl]
    | none =>
      simp only [lastExc, hl]
      cases op with
      | comment c => rfl
      | input a b c d e f g => rfl
      | output a b c d e => rfl
      | auth a b c d => rfl
      | expected a => rfl
      | nameOp a => rfl
      | exception s t c =>
        show exLookup (exInsert rb.exceptions s ⟨t, c⟩) sym = _
        rw [exLookup_exInsert]
        by_cases hs : s = sym
        · rw [if_pos hs]
          simp [hs]
        · rw [if_neg hs]
          simp [hs]

/-- Claim C9: on a freshly constructed Resource builder, the finished
exception mapping at each outcome symbol holds exactly the exception from
the last `Exception` call registered under that symbol (none if never
registered): later registrations silently replace earlier ones under the
same symbol and leave all other symbols untouched. -/
theorem c9_exception_last_registration_wins (typename method path : String)
    (ops : List ROp) (sym : String) :
    exLookup (applyROps ops (NewResourceBuilder typename method path)).exceptions
        sym = lastExc ops sym := by
  rw [exLookup_applyROps]
  cases hl : lastExc ops sym with
  | some e => rfl
  | none => rfl

/-- Witness for C3: in the finalized pW, the Point descriptor (whose name is
a consulted dependency of Line) lies in the segment before Line. -/
theorem c3_witness : pointTy ∈ [pointTy] :=
  @c3_consulted_referent_precedes 9 pW pWout (by decide) (by decide)
    [pointTy] lineTy [] (by decide) pointTy (by decide) (by decide)
